import Mathlib

/-!
Verification development for the Duet printer model
(`meltingplot/duet_simplyprint_connector/duet/model.py`).

We shallowly embed the JSON-like data handled by the module, the pure merge
algorithm `merge_dictionary`, the `DuetPrinter.tick` / `_handle_om_changes`
state transition (with the transport layer abstracted as an oracle, as it is
an external collaborator), and the HTTP-503 overload drain
`DuetPrinter.http_503_callback`.
-/

set_option maxHeartbeats 1000000
set_option linter.unreachableTactic false
set_option linter.unusedTactic false

namespace Duet

/-- JSON-like values as returned by the Duet HTTP API and stored in the
object model: scalars, arrays, and objects.  Python `dict`s are embedded as
insertion-ordered association lists with (by Python's `dict` semantics)
pairwise-distinct keys; `None` is `Value.null`. -/
inductive Value where
  | null : Value
  | bool (b : Bool) : Value
  | int (n : Int) : Value
  | str (s : String) : Value
  | list (items : List Value) : Value
  | obj (fields : List (String × Value)) : Value

/-- Association lists standing for Python dicts with values of type `α`. -/
abbrev AList (α : Type) := List (String × α)

/-- Python `d.get(k)` / `d[k]`: the value at the first occurrence of `k`. -/
def lookupA {α : Type} : AList α → String → Option α
  | [], _ => none
  | (k', v) :: rest, k => if k' = k then some v else lookupA rest k

/-- Python `k in d`. -/
def containsKey {α : Type} (d : AList α) (k : String) : Bool :=
  (lookupA d k).isSome

/-- Python `d[k] = v`: replace the value at an existing key in place,
otherwise append the new binding at the end (dict insertion order). -/
def insertA {α : Type} : AList α → String → α → AList α
  | [], k, v => [(k, v)]
  | (k', v') :: rest, k, v =>
    if k' = k then (k, v) :: rest else (k', v') :: insertA rest k v

/-- Python `d.pop(k, None)`: drop the binding of `k` when present. -/
def popA {α : Type} : AList α → String → AList α
  | [], _ => []
  | (k', v') :: rest, k => if k' = k then rest else (k', v') :: popA rest k

/-- Python `d.update(upd)`: assign every binding of `upd` into `d`, in order. -/
def updateA {α : Type} (d : AList α) (upd : AList α) : AList α :=
  upd.foldl (fun acc kv => insertA acc kv.1 kv.2) d

/-- Keys are pairwise distinct (the invariant every Python dict satisfies). -/
def nodupKeysB {α : Type} : AList α → Bool
  | [] => true
  | (k, _) :: rest => !containsKey rest k && nodupKeysB rest

/-- Failures of `merge_dictionary`, by the Python exception that raises them:
* `lengthMismatch` — the `ValueError` of model.py line 33 (carrying the
  offending key, as the Python message does);
* `typeError` — `TypeError`: `len()` on `None`/bool/int, `dict()` on a
  non-iterable, or an unhashable (list/dict) key inside a `dict()` pair;
* `attributeError` — `AttributeError`: `destination.get` on a non-dict
  destination inside a recursive call with a non-empty source;
* `keyError` — `KeyError`: integer subscription `dest_value[idx]` on a dict
  destination value in the equal-length element loop (object-model dicts are
  string-keyed, so an int subscript never hits);
* `badPairLength` — the `ValueError` of `dict()` on an update-sequence element
  that is not a 2-element sequence (includes `dict()` of a non-empty string,
  whose elements are 1-character strings);
* `nonStrKey` — a modeling boundary, not a Python error: `dict()` here succeeds
  in Python but builds a dict with a non-string key (e.g. `dict([[1, 2]])`),
  which lies outside the JSON value universe `Value` of this embedding (the
  device API exchanges only JSON, whose object keys are strings). -/
inductive MergeErr where
  | lengthMismatch (key : String)
  | typeError
  | attributeError
  | keyError
  | badPairLength
  | nonStrKey

/-- Python `len(v)` on the value universe: defined for lists (element count),
strings (character count) and dicts (key count); `TypeError` otherwise. -/
def pyLen (v : Value) : Except MergeErr Nat :=
  match v with
  | .list l => .ok l.length
  | .str s => .ok s.length
  | .obj fs => .ok fs.length
  | _ => .error .typeError

/-- One element of a `dict()` update sequence, as Python reads it: a 2-element
list `[k, v]` gives the pair `(k, v)` (requiring `k` hashable — lists/dicts
raise `TypeError` — and, for representability in this string-keyed universe, a
string; a hashable non-string key is flagged `nonStrKey`); a 2-character
string `"ab"` gives `("a", "b")`; a 2-key dict gives the pair of its keys;
anything else is not a 2-element sequence (`ValueError`) or not iterable
(`TypeError`). -/
def pyPair (e : Value) : Except MergeErr (String × Value) :=
  match e with
  | .list [kv, v] =>
    match kv with
    | .str s => .ok (s, v)
    | .null => .error .nonStrKey
    | .bool _ => .error .nonStrKey
    | .int _ => .error .nonStrKey
    | _ => .error .typeError
  | .list _ => .error .badPairLength
  | .str s =>
    match s.toList with
    | [c1, c2] => .ok (String.mk [c1], .str (String.mk [c2]))
    | _ => .error .badPairLength
  | .obj [(k1, _), (k2, _)] => .ok (k1, .str k2)
  | .obj _ => .error .badPairLength
  | _ => .error .typeError

/-- The left-to-right fold of `dict()` over an update sequence: the first bad
element raises; duplicate keys are overwritten by later pairs. -/
def pyPairs : List Value → AList Value → Except MergeErr (AList Value)
  | [], acc => .ok acc
  | e :: rest, acc =>
    match pyPair e with
    | .error e2 => .error e2
    | .ok (k, v) => pyPairs rest (insertA acc k v)

/-- Python `dict(v)` on the value universe: a dict is copied; a list is read
as an update sequence of pairs; the empty string gives `{}` while a non-empty
string fails (its elements are 1-character strings); `None`/bool/int are not
iterable. -/
def pyDict (v : Value) : Except MergeErr (AList Value) :=
  match v with
  | .obj fs => .ok fs
  | .list es => pyPairs es []
  | .str s => if s.length = 0 then .ok [] else .error .badPairLength
  | _ => .error .typeError

/-- The equal-length element loop when `dest_value` is a STRING: each
destination slot is a 1-character string — never `None`, so no slot is
skipped — and a dict source element calls `merge_dictionary(item, char)`,
whose `dict(char)` always raises (a 1-character string is not a sequence of
pairs); every other source element is simply kept.  So the loop either fails
at the first dict element or returns the source list unchanged. -/
def mergeListStr : List Value → Except MergeErr (List Value)
  | [] => .ok []
  | x :: xs =>
    match x with
    | .obj _ => .error .badPairLength
    | _ =>
      match mergeListStr xs with
      | .error e => .error e
      | .ok m => .ok (x :: m)

mutual

/-- Embeds `merge_dictionary(source, destination)` (model.py lines 13-49):
`result = {}`; `dk = dict(destination)`; one pass over `source.items()`
(`mergeEntries`), then `result.update(dk)` — the keys the pass left in `dk`
overwrite their provisional values in `result`. -/
def merge_dictionary (source destination : AList Value) :
    Except MergeErr (AList Value) :=
  match mergeEntries source destination [] destination with
  | .error e => .error e
  | .ok (result, dk) => .ok (updateA result dk)
termination_by 2 * sizeOf source + 1
decreasing_by
  all_goals (simp_wf <;> omega)

/-- The `for key, value in source.items():` loop of `merge_dictionary`,
threading the accumulated `result` and the shrinking copy `dk`.  The trailing
`dk.pop(key, None)` (line 47) runs only when the loop body reaches it: the two
`continue` statements of the list branch (lines 31 and 38) skip it, so those
keys stay in `dk` and are overwritten by `result.update(dk)` afterwards.
`mergeValue` reports with a Bool whether the body ran to the pop. -/
def mergeEntries (entries destination result dk : AList Value) :
    Except MergeErr (AList Value × AList Value) :=
  match entries with
  | [] => .ok (result, dk)
  | (key, value) :: rest =>
    match mergeValue key value (lookupA destination key) with
    | .error e => .error e
    | .ok (w, pops) =>
      mergeEntries rest destination (insertA result key w)
        (if pops then popA dk key else dk)
termination_by 2 * sizeOf entries
decreasing_by
  all_goals (simp_wf <;> omega)

/-- The loop body of `merge_dictionary` for one source entry `value`, given
`destination.get(key)` (`none` when the key is absent).  Returns the value
assigned to `result[key]` and whether the body reached `dk.pop(key, None)`:
* `value` a dict: `merge_dictionary(value, destination.get(key, {}))` via
  `mergeObjAny`; the pop runs;
* `value` a list: `dest_value = destination.get(key, [])` and
  `dest_len = len(dest_value)` (Python `len`, so str/dict destinations are
  measured, not rejected); `dest_len == 0` keeps the provisional source list
  and `continue`s (NO pop — `result.update(dk)` later restores the
  destination's empty value when the key was present); `src_len > dest_len`
  raises the length-mismatch `ValueError`; `src_len < dest_len` stores the
  destination's value — whatever its type — and `continue`s (NO pop); equal
  non-zero lengths run the element loop (`mergeList` for a list destination,
  `mergeListStr` for a string destination, and an immediate `KeyError` for a
  dict destination, whose first `dest_value[0]` subscripts a string-keyed
  dict with an int) and the pop runs;
* otherwise (scalar source): `destination.get(key, value)`; the pop runs. -/
def mergeValue (key : String) (value : Value) (destv : Option Value) :
    Except MergeErr (Value × Bool) :=
  match value with
  | .obj m =>
    match destv with
    | none =>
      match merge_dictionary m [] with
      | .error e => .error e
      | .ok r => .ok (.obj r, true)
    | some destvv =>
      match mergeObjAny m destvv with
      | .error e => .error e
      | .ok r => .ok (.obj r, true)
  | .list l =>
    match destv with
    | none => .ok (.list l, false)
    | some dv =>
      match pyLen dv with
      | .error e => .error e
      | .ok dlen =>
        if dlen = 0 then .ok (.list l, false)
        else if dlen < l.length then .error (.lengthMismatch key)
        else if l.length < dlen then .ok (dv, false)
        else
          match dv with
          | .list d =>
            match mergeList l d with
            | .error e => .error e
            | .ok m => .ok (.list m, true)
          | .str _ =>
            match mergeListStr l with
            | .error e => .error e
            | .ok m => .ok (.list m, true)
          | .obj _ => .error .keyError
          | _ => .error .typeError
  | v =>
    match destv with
    | some w => .ok (w, true)
    | none => .ok (v, true)
termination_by 2 * sizeOf value + 1
decreasing_by
  all_goals (simp_wf <;> omega)

/-- A recursive `merge_dictionary(m, dest)` call whose destination is an
arbitrary runtime value, as Python executes it: a dict destination is the
ordinary recursive merge; otherwise `dk = dict(dest)` is evaluated first
(`pyDict`), and then — since every branch of the loop body calls
`destination.get` — a non-empty source raises `AttributeError`, while an
empty source skips the loop and returns `dict(dest)` via `result.update(dk)`. -/
def mergeObjAny (m : AList Value) (dest : Value) : Except MergeErr (AList Value) :=
  match dest with
  | .obj dm => merge_dictionary m dm
  | other =>
    match pyDict other with
    | .error e => .error e
    | .ok g =>
      match m with
      | [] => .ok g
      | _ => .error .attributeError
termination_by 2 * sizeOf m + 2
decreasing_by
  all_goals (simp_wf <;> omega)

/-- The equal-length element loop of `merge_dictionary` for a LIST destination
(`for idx, item in enumerate(value)` over `result[key]`, which aliases the
source list): a slot whose destination element is `None` is skipped (the
source element stays); a slot whose source element is a dict is replaced by
`merge_dictionary(item, dest_value[idx])` — via `mergeObjAny`, so a non-dict
destination element can still succeed, e.g. an empty source dict against a
list of pairs; every other slot keeps the source element.  Only ever invoked
with lists of equal length. -/
def mergeList (src dst : List Value) : Except MergeErr (List Value) :=
  match src, dst with
  | [], _ => .ok []
  | s :: srest, [] => .ok (s :: srest)
  | s :: srest, d :: drest =>
    match d with
    | .null =>
      match mergeList srest drest with
      | .error e => .error e
      | .ok m => .ok (s :: m)
    | _ =>
      match s with
      | .obj a =>
        match mergeObjAny a d with
        | .error e => .error e
        | .ok g =>
          match mergeList srest drest with
          | .error e => .error e
          | .ok m => .ok (.obj g :: m)
      | _ =>
        match mergeList srest drest with
        | .error e => .error e
        | .ok m => .ok (s :: m)
termination_by 2 * sizeOf src
decreasing_by
  all_goals (simp_wf <;> omega)

end

/-! ## Well-formed values

Every value a Python program can actually build has pairwise-distinct keys in
each of its dicts; `wfValue`/`wfDict`/`wfList` state this recursively. -/

mutual

/-- Every dict inside the value has pairwise-distinct keys. -/
def wfValue : Value → Bool
  | .obj fs => wfDict fs
  | .list xs => wfList xs
  | _ => true
termination_by v => sizeOf v
decreasing_by
  all_goals (simp_wf <;> omega)

/-- Keys pairwise distinct here and in all nested values. -/
def wfDict : List (String × Value) → Bool
  | [] => true
  | (k, v) :: rest => !containsKey rest k && wfValue v && wfDict rest
termination_by d => sizeOf d
decreasing_by
  all_goals (simp_wf <;> omega)

/-- All elements well-formed. -/
def wfList : List Value → Bool
  | [] => true
  | x :: xs => wfValue x && wfList xs
termination_by l => sizeOf l
decreasing_by
  all_goals (simp_wf <;> omega)

end

/-! ## The HTTP 503 overload drain

`DuetPrinter.http_503_callback` (model.py lines 197-207).  The stream of
values returned by successive `api.rr_reply(nocache=True)` calls is the
oracle `replies`; `self._reply` before the callback is `reply0` (`None`
before any reply was ever stored). -/

/-- Observable outcome of the 503 callback: the final `self._reply`, how many
`rr_reply` reads the loop performed, and that `self._wait_for_reply.set()`
was called (it always is, after the loop). -/
structure DrainResult where
  reply : Option String
  reads : Nat
  signalPulsed : Bool

/-- The `for _ in range(10):` drain loop: read a reply; an empty string
breaks out of the loop; anything else is stored in `self._reply` and the
loop continues.  `fuel` is the remaining range, `idx` the number of reads
performed so far, `cur` the current `self._reply`.  Returns the final
`self._reply` and the total number of reads. -/
def drainLoop (replies : Nat → String) : Nat → Nat → Option String → Option String × Nat
  | 0, idx, cur => (cur, idx)
  | fuel + 1, idx, cur =>
    let r := replies idx
    if r = "" then (cur, idx + 1)
    else drainLoop replies fuel (idx + 1) (some r)

/-- Embeds `DuetPrinter.http_503_callback`: drain up to 10 replies, then set
the ready signal (the trailing `set` / yield / `clear` is the pulse
observed by waiters). -/
def http_503_callback (replies : Nat → String) (reply0 : Option String) : DrainResult :=
  let rn := drainLoop replies 10 0 reply0
  ⟨rn.1, rn.2, true⟩

/-! ## The printer state machine

`DuetPrinter.tick` and `DuetPrinter._handle_om_changes` (model.py lines
150-195).  The transport (`RepRapFirmware` api plus the chunked fetcher
built on it) is an external collaborator; each network operation `tick`
performs is an oracle field of `Transport`.  A Python exception from the
transport propagates out of `tick`, but all attribute mutations made before
the raising call persist, so `tick` returns the (possibly mutated) state
together with an `Except` outcome. -/

/-- Transport errors (connection failure, timeout, cancellation). -/
inductive TErr where
  | transport (msg : String)

/-- Oracle for the network operations `tick` performs:
* `fullStatus` — the `result` of `_fetch_full_status()` (root object model);
* `pollSeqs` — the `result` of `api.rr_model(key='seqs')`, an int-valued dict;
* `fetchKey k` — the `result` of
  `_fetch_objectmodel_recursive(key=k, depth=2, ...)`;
* `rrReply` — the text of `api.rr_reply()`. -/
structure Transport where
  fullStatus : Except TErr (AList Value)
  pollSeqs : Except TErr (AList Int)
  fetchKey : String → Except TErr Value
  rrReply : Except TErr String

/-- The mutable attributes of `DuetPrinter` the synchronizer touches:
`om` (baseline object model, `None` initially), `seqs` (stored sequence
counters, `None` initially) and `_reply` (the pending-reply slot).  The
`_wait_for_reply` event always ends a tick cleared, so it is not part of
the state; the reply-branch pulse is observable through `reply`. -/
structure Printer where
  om : Option (AList Value)
  seqs : Option (AList Int)
  reply : Option String

/-- The change diff of `tick` when `self.seqs is not None`: a key of the
fresh poll is changed iff it is present in the stored counters with a
different value (`for key, value in result['result'].items(): if key in
self.seqs and self.seqs[key] != value`). -/
def seqChanges (old newSeqs : AList Int) : AList Int :=
  newSeqs.filter (fun kv =>
    match lookupA old kv.1 with
    | some w => decide (w ≠ kv.2)
    | none => false)

/-- The `for key in changes:` loop of `_handle_om_changes`: skip `'reply'`;
otherwise fetch the subtree for the key and assign it wholesale
(`self.om[key] = changed_obj['result']`).  A transport error aborts the
loop, keeping the assignments already made. -/
def processChanges (t : Transport) (om : AList Value) :
    AList Int → AList Value × Except TErr Unit
  | [] => (om, .ok ())
  | (key, _) :: rest =>
    if key = "reply" then processChanges t om rest
    else
      match t.fetchKey key with
      | .error e => (om, .error e)
      | .ok v => processChanges t (insertA om key v) rest

/-- `_handle_om_changes` after its `'reply'` branch: pop `'volChanges'`
(when `changes` is the very same dict object as the freshly stored
`self.seqs` — the `self.seqs is None` path of `tick`, flagged by `aliased`
— the pop also removes the key from the stored counters), then run the
fetch loop and store the updated object model. -/
def handleCore (t : Transport) (p : Printer) (d : AList Value)
    (changes : AList Int) (aliased : Bool) : Printer × Except TErr Unit :=
  let hasVol := containsKey changes "volChanges"
  let changes1 := popA changes "volChanges"
  let p2 := if aliased && hasVol then
    { p with seqs := p.seqs.map (fun s => popA s "volChanges") } else p
  let pr := processChanges t d changes1
  ({ p2 with om := some pr.1 }, pr.2)

/-- Embeds `DuetPrinter._handle_om_changes(changes)`: if `'reply'` is among
the changes, fetch the reply text into `self._reply` and pulse the event
(a transport error there aborts before anything else happens); then the
volChanges pop and the per-key fetch loop.  `d` is the current baseline
dict `self.om`. -/
def handle_om_changes (t : Transport) (p : Printer) (d : AList Value)
    (changes : AList Int) (aliased : Bool) : Printer × Except TErr Unit :=
  if containsKey changes "reply" then
    match t.rrReply with
    | .error e => (p, .error e)
    | .ok r => handleCore t { p with reply := some r } d changes aliased
  else handleCore t p d changes aliased

/-- Embeds `DuetPrinter.tick()` (model.py lines 172-195):
* `self.om is None` — full fetch; on success only `self.om` is assigned;
* otherwise poll `seqs`; with no stored counters the whole poll result is
  the change set (and `changes` aliases the dict stored into `self.seqs`),
  else diff via `seqChanges`; store the new counters unconditionally;
  an empty change set returns immediately, else `_handle_om_changes`. -/
def tick (t : Transport) (p : Printer) : Printer × Except TErr Unit :=
  match p.om with
  | none =>
    match t.fullStatus with
    | .error e => (p, .error e)
    | .ok r => ({ p with om := some r }, .ok ())
  | some d =>
    match t.pollSeqs with
    | .error e => (p, .error e)
    | .ok newSeqs =>
      let changes := match p.seqs with
        | none => newSeqs
        | some old => seqChanges old newSeqs
      let aliased := p.seqs.isNone
      let p1 := { p with seqs := some newSeqs }
      if changes.isEmpty then (p1, .ok ())
      else handle_om_changes t p1 d changes aliased

/-! ## Association-list lemmas -/

theorem containsKey_cons {α : Type} (k' : String) (v : α) (rest : AList α) (k : String) :
    containsKey ((k', v) :: rest) k = (decide (k' = k) || containsKey rest k) := by
  by_cases h : k' = k <;> simp [containsKey, lookupA, h]

theorem containsKey_of_mem {α : Type} {d : AList α} {k : String} {v : α}
    (h : (k, v) ∈ d) : containsKey d k = true := by
  induction d with
  | nil => cases h
  | cons hd tl ih =>
    obtain ⟨k', v'⟩ := hd
    rcases List.mem_cons.mp h with h | h
    · cases h; simp [containsKey, lookupA]
    · by_cases hk : k' = k <;> simp [containsKey, lookupA, hk] at ih ⊢ <;> exact ih h

theorem mem_of_lookupA {α : Type} {d : AList α} {k : String} {v : α}
    (h : lookupA d k = some v) : (k, v) ∈ d := by
  induction d with
  | nil => simp [lookupA] at h
  | cons hd tl ih =>
    obtain ⟨k', v'⟩ := hd
    by_cases hk : k' = k
    · subst hk; simp [lookupA] at h; simp [h]
    · simp [lookupA, hk] at h; exact List.mem_cons_of_mem _ (ih h)

theorem lookupA_of_mem_nodup {α : Type} {d : AList α} {k : String} {v : α}
    (hnd : nodupKeysB d = true) (h : (k, v) ∈ d) : lookupA d k = some v := by
  induction d with
  | nil => cases h
  | cons hd tl ih =>
    obtain ⟨k', v'⟩ := hd
    simp only [nodupKeysB, Bool.and_eq_true, Bool.not_eq_true'] at hnd
    rcases List.mem_cons.mp h with h | h
    · cases h; simp [lookupA]
    · have hk : k' ≠ k := by
        intro hkk; subst hkk
        exact absurd (containsKey_of_mem h) (by simp [hnd.1])
      simp [lookupA, hk]; exact ih hnd.2 h

theorem lookupA_insertA_self {α : Type} (d : AList α) (k : String) (v : α) :
    lookupA (insertA d k v) k = some v := by
  induction d with
  | nil => simp [insertA, lookupA]
  | cons hd tl ih =>
    obtain ⟨k', v'⟩ := hd
    by_cases h : k' = k <;> simp [insertA, lookupA, h, ih]

theorem lookupA_insertA_ne {α : Type} (d : AList α) {k' k : String} (h : k' ≠ k) (v : α) :
    lookupA (insertA d k' v) k = lookupA d k := by
  induction d with
  | nil => simp [insertA, lookupA, h]
  | cons hd tl ih =>
    obtain ⟨k0, v0⟩ := hd
    by_cases h0 : k0 = k'
    · subst h0; simp [insertA, lookupA, h]
    · by_cases h1 : k0 = k <;> simp [insertA, lookupA, h0, h1, Ne.symm h, ih]

theorem insertA_not_contains {α : Type} {d : AList α} {k : String}
    (h : containsKey d k = false) (v : α) : insertA d k v = d ++ [(k, v)] := by
  induction d with
  | nil => simp [insertA]
  | cons hd tl ih =>
    obtain ⟨k', v'⟩ := hd
    rw [containsKey_cons] at h
    simp only [Bool.or_eq_false_iff, decide_eq_false_iff_not] at h
    simp [insertA, h.1, ih h.2]

theorem lookupA_append_right {α : Type} {d : AList α} {k : String}
    (h : containsKey d k = false) (e : AList α) :
    lookupA (d ++ e) k = lookupA e k := by
  induction d with
  | nil => simp
  | cons hd tl ih =>
    obtain ⟨k', v'⟩ := hd
    rw [containsKey_cons] at h
    simp only [Bool.or_eq_false_iff, decide_eq_false_iff_not] at h
    simp [lookupA, h.1, ih h.2]

theorem lookupA_popA_ne {α : Type} (d : AList α) {k' k : String} (h : k' ≠ k) :
    lookupA (popA d k') k = lookupA d k := by
  induction d with
  | nil => simp [popA]
  | cons hd tl ih =>
    obtain ⟨k0, v0⟩ := hd
    by_cases h0 : k0 = k'
    · subst h0; simp [popA, lookupA, h]
    · by_cases h1 : k0 = k <;> simp [popA, lookupA, h0, h1, Ne.symm h, ih]

theorem containsKey_popA_ne {α : Type} (d : AList α) {k' k : String} (h : k' ≠ k) :
    containsKey (popA d k') k = containsKey d k := by
  simp [containsKey, lookupA_popA_ne d h]

theorem containsKey_popA_self {α : Type} {d : AList α} (hnd : nodupKeysB d = true)
    (k : String) : containsKey (popA d k) k = false := by
  induction d with
  | nil => simp [popA, containsKey, lookupA]
  | cons hd tl ih =>
    obtain ⟨k', v'⟩ := hd
    simp only [nodupKeysB, Bool.and_eq_true, Bool.not_eq_true'] at hnd
    by_cases h : k' = k
    · subst h; simp [popA, hnd.1]
    · simp [popA, h, containsKey_cons, ih hnd.2]

theorem containsKey_popA_false {α : Type} {d : AList α} {k : String}
    (h : containsKey d k = false) (k' : String) :
    containsKey (popA d k') k = false := by
  induction d with
  | nil => simp [popA, containsKey, lookupA]
  | cons hd tl ih =>
    obtain ⟨k0, v0⟩ := hd
    rw [containsKey_cons] at h
    simp only [Bool.or_eq_false_iff, decide_eq_false_iff_not] at h
    by_cases h0 : k0 = k'
    · subst h0; simpa [popA] using h.2
    · simp [popA, h0, containsKey_cons, h.1, ih h.2]

theorem nodupKeysB_popA {α : Type} {d : AList α} (hnd : nodupKeysB d = true)
    (k : String) : nodupKeysB (popA d k) = true := by
  induction d with
  | nil => simp [popA, nodupKeysB]
  | cons hd tl ih =>
    obtain ⟨k', v'⟩ := hd
    simp only [nodupKeysB, Bool.and_eq_true, Bool.not_eq_true'] at hnd
    by_cases h : k' = k
    · subst h; simpa [popA] using hnd.2
    · simp only [popA, h, if_false, nodupKeysB, Bool.and_eq_true, Bool.not_eq_true']
      exact ⟨containsKey_popA_false hnd.1 k, ih hnd.2⟩

theorem lookupA_updateA_not_contains {α : Type} {upd : AList α} {k : String}
    (h : containsKey upd k = false) (d : AList α) :
    lookupA (updateA d upd) k = lookupA d k := by
  induction upd generalizing d with
  | nil => simp [updateA]
  | cons hd tl ih =>
    obtain ⟨k', v'⟩ := hd
    rw [containsKey_cons] at h
    simp only [Bool.or_eq_false_iff, decide_eq_false_iff_not] at h
    show lookupA (updateA (insertA d k' v') tl) k = lookupA d k
    rw [ih h.2, lookupA_insertA_ne d h.1]

theorem updateA_nil {α : Type} (d : AList α) : updateA d [] = d := rfl

theorem isEmpty_false_of_containsKey {α : Type} {d : AList α} {k : String}
    (h : containsKey d k = true) : d.isEmpty = false := by
  cases d with
  | nil => simp [containsKey, lookupA] at h
  | cons hd tl => rfl

theorem foldl_popA_self {α : Type} {d : AList α} (hnd : nodupKeysB d = true) :
    d.foldl (fun acc kv => popA acc kv.1) d = [] := by
  have aux : ∀ (l acc : AList α), acc = l → nodupKeysB l = true →
      l.foldl (fun acc kv => popA acc kv.1) acc = [] := by
    intro l
    induction l with
    | nil => intro acc h _; simp [h]
    | cons hd tl ih =>
      intro acc h hnd'
      obtain ⟨k', v'⟩ := hd
      simp only [nodupKeysB, Bool.and_eq_true, Bool.not_eq_true'] at hnd'
      subst h
      show tl.foldl (fun acc kv => popA acc kv.1) (popA ((k', v') :: tl) k') = []
      have : popA ((k', v') :: tl) k' = tl := by simp [popA]
      rw [this]
      exact ih tl rfl hnd'.2
  exact aux d d rfl hnd

theorem containsKey_append {α : Type} (a b : AList α) (k : String) :
    containsKey (a ++ b) k = (containsKey a k || containsKey b k) := by
  induction a with
  | nil => simp [containsKey, lookupA]
  | cons hd tl ih =>
    obtain ⟨k', v'⟩ := hd
    by_cases h : k' = k <;> simp [containsKey, lookupA, h] <;>
      simpa [containsKey] using ih

/-! ## Well-formedness lemmas -/

theorem wfDict_nodup {d : AList Value} (h : wfDict d = true) : nodupKeysB d = true := by
  induction d with
  | nil => rfl
  | cons hd tl ih =>
    obtain ⟨k, v⟩ := hd
    rw [wfDict] at h
    simp only [Bool.and_eq_true] at h
    simp only [nodupKeysB, Bool.and_eq_true]
    exact ⟨h.1.1, ih h.2⟩

theorem wfDict_mem_value {d : AList Value} {k : String} {v : Value}
    (h : wfDict d = true) (hm : (k, v) ∈ d) : wfValue v = true := by
  induction d with
  | nil => cases hm
  | cons hd tl ih =>
    obtain ⟨k', v'⟩ := hd
    rw [wfDict] at h
    simp only [Bool.and_eq_true] at h
    rcases List.mem_cons.mp hm with hmm | hmm
    · cases hmm; exact h.1.2
    · exact ih h.2 hmm

theorem sizeOf_snd_lt_of_mem {d : AList Value} {k : String} {v : Value}
    (h : (k, v) ∈ d) : sizeOf v < sizeOf d := by
  have h1 : sizeOf (k, v) < sizeOf d := List.sizeOf_lt_of_mem h
  have h2 : sizeOf v < sizeOf (k, v) := by simp
  omega

/-! ## Idempotence of the merge (claim C8 machinery) -/

theorem insertA_lookup_id {α : Type} {d : AList α} {k : String} {v : α}
    (h : lookupA d k = some v) : insertA d k v = d := by
  induction d with
  | nil => simp [lookupA] at h
  | cons hd tl ih =>
    obtain ⟨k0, v0⟩ := hd
    by_cases hk : k0 = k
    · subst hk
      have h2 : v0 = v := by simpa [lookupA] using h
      subst h2
      simp [insertA]
    · simp only [lookupA, if_neg hk] at h
      simp [insertA, hk, ih h]

theorem mem_popA {α : Type} {d : AList α} {k2 : String} {kv : String × α}
    (h : kv ∈ popA d k2) : kv ∈ d := by
  induction d with
  | nil => simpa [popA] using h
  | cons hd tl ih =>
    obtain ⟨k0, v0⟩ := hd
    by_cases hk : k0 = k2
    · subst hk
      simp only [popA, if_pos rfl] at h
      exact List.mem_cons_of_mem _ h
    · simp only [popA, if_neg hk] at h
      rcases List.mem_cons.mp h with h | h
      · simp [h]
      · exact List.mem_cons_of_mem _ (ih h)

theorem updateA_self {α : Type} {upd : AList α} :
    ∀ {d : AList α}, (∀ k v, (k, v) ∈ upd → lookupA d k = some v) → updateA d upd = d := by
  induction upd with
  | nil => intro d _; rfl
  | cons hd tl ih =>
    intro d h
    obtain ⟨k0, v0⟩ := hd
    show updateA (insertA d k0 v0) tl = d
    rw [insertA_lookup_id (h k0 v0 (List.mem_cons_self _ _))]
    exact ih (fun k v hm => h k v (List.mem_cons_of_mem _ hm))

theorem mergeEntries_self (dest : AList Value) :
    ∀ (entries result dk : AList Value),
      (∀ k v, (k, v) ∈ entries → lookupA dest k = some v) →
      (∀ k v, (k, v) ∈ entries → ∃ pops, mergeValue k v (some v) = .ok (v, pops)) →
      (∀ k v, (k, v) ∈ entries → containsKey result k = false) →
      nodupKeysB entries = true →
      ∃ dk2, mergeEntries entries dest result dk = .ok (result ++ entries, dk2) ∧
        ∀ kv, kv ∈ dk2 → kv ∈ dk := by
  intro entries
  induction entries with
  | nil =>
    intro result dk _ _ _ _
    exact ⟨dk, by simp [mergeEntries], fun kv h => h⟩
  | cons hd tl ih =>
    intro result dk h1 h2 h3 hnd
    obtain ⟨k, v⟩ := hd
    have hl : lookupA dest k = some v := h1 k v (List.mem_cons_self _ _)
    obtain ⟨pops, hm⟩ := h2 k v (List.mem_cons_self _ _)
    simp only [nodupKeysB, Bool.and_eq_true, Bool.not_eq_true'] at hnd
    have hins : insertA result k v = result ++ [(k, v)] :=
      insertA_not_contains (h3 k v (List.mem_cons_self _ _)) v
    have hnotc : ∀ k2 v2, (k2, v2) ∈ tl → containsKey (result ++ [(k, v)]) k2 = false := by
      intro k2 v2 hm2
      rw [containsKey_append, h3 k2 v2 (List.mem_cons_of_mem _ hm2)]
      have hne : k ≠ k2 := by
        intro hkk; subst hkk
        exact absurd (containsKey_of_mem hm2) (by simp [hnd.1])
      simp [containsKey, lookupA, hne]
    obtain ⟨dk2, hrec, hsub⟩ := ih (result ++ [(k, v)]) (if pops then popA dk k else dk)
      (fun k2 v2 hm2 => h1 k2 v2 (List.mem_cons_of_mem _ hm2))
      (fun k2 v2 hm2 => h2 k2 v2 (List.mem_cons_of_mem _ hm2))
      hnotc hnd.2
    refine ⟨dk2, ?_, ?_⟩
    · rw [mergeEntries]
      simp only [hl, hm, hins]
      rw [hrec]
      simp
    · intro kv hkv
      have hin := hsub kv hkv
      cases hp : pops with
      | true => rw [hp] at hin; simp only [if_true] at hin; exact mem_popA hin
      | false => rw [hp] at hin; simpa using hin

theorem merge_self_all : ∀ n : Nat,
    (∀ d : AList Value, sizeOf d < n → wfDict d = true → merge_dictionary d d = .ok d) ∧
    (∀ (key : String) (v : Value), sizeOf v < n → wfValue v = true →
      ∃ pops, mergeValue key v (some v) = .ok (v, pops)) ∧
    (∀ l : List Value, sizeOf l < n → wfList l = true → mergeList l l = .ok l) := by
  intro n
  induction n using Nat.strong_induction_on with
  | _ n ih =>
  refine ⟨?_, ?_, ?_⟩
  · intro d hsz hwf
    have hnd := wfDict_nodup hwf
    have h2 : ∀ k v, (k, v) ∈ d → ∃ pops, mergeValue k v (some v) = .ok (v, pops) := by
      intro k v hm
      exact (ih (sizeOf d) hsz).2.1 k v (sizeOf_snd_lt_of_mem hm) (wfDict_mem_value hwf hm)
    obtain ⟨dk2, hme, hsub⟩ := mergeEntries_self d d [] d
      (fun k v hm => lookupA_of_mem_nodup hnd hm) h2 (fun k v _ => rfl) hnd
    rw [merge_dictionary, hme]
    simp only [List.nil_append]
    rw [updateA_self (fun k v hm => lookupA_of_mem_nodup hnd (hsub (k, v) hm))]
  · intro key v hsz hwf
    cases v with
    | null => exact ⟨true, by simp [mergeValue]⟩
    | bool b => exact ⟨true, by simp [mergeValue]⟩
    | int m => exact ⟨true, by simp [mergeValue]⟩
    | str s => exact ⟨true, by simp [mergeValue]⟩
    | obj m =>
      have hsm : sizeOf m < sizeOf (Value.obj m) := by simp
      have hmm : merge_dictionary m m = .ok m :=
        (ih (sizeOf (Value.obj m)) hsz).1 m hsm (by rw [wfValue] at hwf; exact hwf)
      exact ⟨true, by simp [mergeValue, mergeObjAny, hmm]⟩
    | list l =>
      have hsl : sizeOf l < sizeOf (Value.list l) := by simp
      have hll : mergeList l l = .ok l :=
        (ih (sizeOf (Value.list l)) hsz).2.2 l hsl (by rw [wfValue] at hwf; exact hwf)
      by_cases h0 : l.length = 0
      · exact ⟨false, by simp [mergeValue, pyLen, h0]⟩
      · exact ⟨true, by simp [mergeValue, pyLen, h0, hll]⟩
  · intro l hsz hwf
    induction l with
    | nil => simp [mergeList]
    | cons x xs ihl =>
      have hszx : sizeOf xs < n := by simp at hsz; omega
      rw [wfList] at hwf
      simp only [Bool.and_eq_true] at hwf
      have hxs : mergeList xs xs = .ok xs := ihl hszx hwf.2
      cases x with
      | null => simp [mergeList, hxs]
      | bool b => simp [mergeList, hxs]
      | int m => simp [mergeList, hxs]
      | str s => simp [mergeList, hxs]
      | list l2 => simp [mergeList, hxs]
      | obj a =>
        have hsa : sizeOf a < sizeOf (Value.obj a :: xs) := by simp; omega
        have haa : merge_dictionary a a = .ok a :=
          (ih (sizeOf (Value.obj a :: xs)) hsz).1 a hsa
            (by rw [wfValue] at hwf; exact hwf.1)
        simp [mergeList, mergeObjAny, haa, hxs]

/-! ## Lookup characterization of a successful merge (claims C2, C3 machinery) -/

theorem lookupA_eq_none_of_not_contains {α : Type} {d : AList α} {k : String}
    (h : containsKey d k = false) : lookupA d k = none := by
  cases hl : lookupA d k with
  | none => rfl
  | some v => rw [containsKey, hl] at h; simp at h

theorem mergeEntries_lookup_frame :
    ∀ (entries destination result dk res dk2 : AList Value),
      mergeEntries entries destination result dk = .ok (res, dk2) →
      ∀ k, containsKey entries k = false → lookupA res k = lookupA result k := by
  intro entries
  induction entries with
  | nil =>
    intro dest result dk res dk2 h k _
    rw [mergeEntries] at h
    simp only [Except.ok.injEq, Prod.mk.injEq] at h
    rw [← h.1]
  | cons hd tl ih =>
    intro dest result dk res dk2 h k hnc
    obtain ⟨k0, v0⟩ := hd
    rw [containsKey_cons] at hnc
    simp only [Bool.or_eq_false_iff, decide_eq_false_iff_not] at hnc
    rw [mergeEntries] at h
    cases hv : mergeValue k0 v0 (lookupA dest k0) with
    | error e => rw [hv] at h; simp at h
    | ok wp =>
      obtain ⟨w, pops⟩ := wp
      rw [hv] at h
      rw [ih dest (insertA result k0 w) (if pops then popA dk k0 else dk) res dk2 h k
        hnc.2, lookupA_insertA_ne result hnc.1 w]

theorem mergeEntries_dk_pops :
    ∀ (entries destination result dk res dk2 : AList Value),
      mergeEntries entries destination result dk = .ok (res, dk2) →
      ∀ k, containsKey dk k = false → containsKey dk2 k = false := by
  intro entries
  induction entries with
  | nil =>
    intro dest result dk res dk2 h k hnc
    rw [mergeEntries] at h
    simp only [Except.ok.injEq, Prod.mk.injEq] at h
    rw [← h.2]; exact hnc
  | cons hd tl ih =>
    intro dest result dk res dk2 h k hnc
    obtain ⟨k0, v0⟩ := hd
    rw [mergeEntries] at h
    cases hv : mergeValue k0 v0 (lookupA dest k0) with
    | error e => rw [hv] at h; simp at h
    | ok wp =>
      obtain ⟨w, pops⟩ := wp
      rw [hv] at h
      refine ih dest (insertA result k0 w) (if pops then popA dk k0 else dk) res dk2 h k ?_
      cases pops with
      | true => simpa using containsKey_popA_false hnc k0
      | false => simpa using hnc

theorem mergeEntries_dk_removed :
    ∀ (entries destination result dk res dk2 : AList Value),
      mergeEntries entries destination result dk = .ok (res, dk2) →
      nodupKeysB dk = true →
      ∀ k v w, (k, v) ∈ entries →
        mergeValue k v (lookupA destination k) = .ok (w, true) →
        containsKey dk2 k = false := by
  intro entries
  induction entries with
  | nil => intro _ _ _ _ _ _ _ _ _ _ hm _; cases hm
  | cons hd tl ih =>
    intro dest result dk res dk2 h hnd k v w hm hpop
    obtain ⟨k0, v0⟩ := hd
    rw [mergeEntries] at h
    cases hv : mergeValue k0 v0 (lookupA dest k0) with
    | error e => rw [hv] at h; simp at h
    | ok wp =>
      obtain ⟨w0, p0⟩ := wp
      rw [hv] at h
      rcases List.mem_cons.mp hm with hmm | hmm
      · cases hmm
        have hp0 : p0 = true := by
          rw [hpop] at hv
          injection hv with hv2
          injection hv2 with _ hp
          exact hp.symm
        rw [hp0] at h
        simp only [if_true] at h
        exact mergeEntries_dk_pops tl dest (insertA result k w0) (popA dk k) res dk2 h k
          (containsKey_popA_self hnd k)
      · refine ih dest (insertA result k0 w0) (if p0 then popA dk k0 else dk) res dk2 h
          ?_ k v w hmm hpop
        cases p0 with
        | true => simpa using nodupKeysB_popA hnd k0
        | false => simpa using hnd

theorem mergeEntries_lookup_processed :
    ∀ (entries destination result dk res dk2 : AList Value),
      mergeEntries entries destination result dk = .ok (res, dk2) →
      nodupKeysB entries = true →
      ∀ k v, (k, v) ∈ entries →
        ∃ w pops, mergeValue k v (lookupA destination k) = .ok (w, pops) ∧
          lookupA res k = some w := by
  intro entries
  induction entries with
  | nil => intro _ _ _ _ _ _ _ _ _ hm; cases hm
  | cons hd tl ih =>
    intro dest result dk res dk2 h hnd k v hm
    obtain ⟨k0, v0⟩ := hd
    simp only [nodupKeysB, Bool.and_eq_true, Bool.not_eq_true'] at hnd
    rw [mergeEntries] at h
    cases hv : mergeValue k0 v0 (lookupA dest k0) with
    | error e => rw [hv] at h; simp at h
    | ok wp =>
      obtain ⟨w, pops⟩ := wp
      rw [hv] at h
      rcases List.mem_cons.mp hm with hmm | hmm
      · cases hmm
        refine ⟨w, pops, hv, ?_⟩
        rw [mergeEntries_lookup_frame tl dest (insertA result k w)
          (if pops then popA dk k else dk) res dk2 h k hnd.1]
        exact lookupA_insertA_self result k w
      · exact ih dest (insertA result k0 w) (if pops then popA dk k0 else dk) res dk2 h
          hnd.2 k v hmm

theorem merge_dictionary_ok_lookup {source destination r : AList Value}
    (h : merge_dictionary source destination = .ok r)
    (hnds : nodupKeysB source = true) (hndd : nodupKeysB destination = true)
    {k : String} {v : Value} (hm : (k, v) ∈ source) :
    ∃ w pops, mergeValue k v (lookupA destination k) = .ok (w, pops) ∧
      (pops = true → lookupA r k = some w) := by
  rw [merge_dictionary] at h
  cases hme : mergeEntries source destination [] destination with
  | error e => rw [hme] at h; simp at h
  | ok p =>
    obtain ⟨res, dk2⟩ := p
    rw [hme] at h
    simp only [Except.ok.injEq] at h
    obtain ⟨w, pops, hw, hlw⟩ :=
      mergeEntries_lookup_processed source destination [] destination res dk2 hme hnds k v hm
    refine ⟨w, pops, hw, fun hp => ?_⟩
    have hdk : containsKey dk2 k = false :=
      mergeEntries_dk_removed source destination [] destination res dk2 hme hndd k v w hm
        (hp ▸ hw)
    rw [← h, lookupA_updateA_not_contains hdk res]
    exact hlw

theorem mergeEntries_error_of_entry :
    ∀ (entries destination result dk : AList Value) (k : String) (v : Value) (e : MergeErr),
      (k, v) ∈ entries → mergeValue k v (lookupA destination k) = .error e →
      ∃ e2, mergeEntries entries destination result dk = .error e2 := by
  intro entries
  induction entries with
  | nil => intro _ _ _ _ _ _ hm _; cases hm
  | cons hd tl ih =>
    intro dest result dk k v e hm hv
    obtain ⟨k0, v0⟩ := hd
    rcases List.mem_cons.mp hm with hmm | hmm
    · cases hmm
      exact ⟨e, by rw [mergeEntries, hv]⟩
    · cases hv0 : mergeValue k0 v0 (lookupA dest k0) with
      | error e0 => exact ⟨e0, by rw [mergeEntries, hv0]⟩
      | ok wp =>
        obtain ⟨w, pops⟩ := wp
        obtain ⟨e2, he⟩ := ih dest (insertA result k0 w)
          (if pops then popA dk k0 else dk) k v e hmm hv
        exact ⟨e2, by rw [mergeEntries, hv0]; exact he⟩

theorem merge_dictionary_error_of_entry {source destination : AList Value}
    {k : String} {v : Value} {e : MergeErr} (hm : (k, v) ∈ source)
    (hv : mergeValue k v (lookupA destination k) = .error e) :
    ∃ e2, merge_dictionary source destination = .error e2 := by
  obtain ⟨e2, he⟩ :=
    mergeEntries_error_of_entry source destination [] destination k v e hm hv
  exact ⟨e2, by rw [merge_dictionary, he]⟩

/-- How one slot of the equal-length element loop relates source element,
destination element and output element: a `None` destination element keeps the
source element; a dict source element (with non-`None` destination element) is
replaced by `merge_dictionary(item, dest_value[idx])` — `mergeObjAny`, which
for a dict destination element is the ordinary recursive merge and for any
other destination element follows Python's `dict()`/attribute semantics; every
other slot keeps the source element. -/
def mergeSlotRel (src dst out : Value) : Prop :=
  (dst = .null ∧ out = src) ∨
  (dst ≠ .null ∧ ∃ a g, src = .obj a ∧ mergeObjAny a dst = .ok g ∧ out = .obj g) ∨
  (dst ≠ .null ∧ (∀ a, src ≠ .obj a) ∧ out = src)

theorem mergeList_cons_ok {x y : Value} {xs ys m : List Value}
    (h : mergeList (x :: xs) (y :: ys) = .ok m) :
    ∃ hout mm, m = hout :: mm ∧ mergeList xs ys = .ok mm ∧ mergeSlotRel x y hout := by
  cases y with
  | null =>
    simp only [mergeList] at h
    cases hrec : mergeList xs ys with
    | error e => rw [hrec] at h; exact absurd h (by simp)
    | ok mm =>
      rw [hrec] at h
      simp only [Except.ok.injEq] at h
      exact ⟨x, mm, h.symm, rfl, by simp [mergeSlotRel]⟩
  | obj b =>
    cases x with
    | obj a =>
      simp only [mergeList] at h
      cases hmd : mergeObjAny a (Value.obj b) with
      | error e => rw [hmd] at h; exact absurd h (by simp)
      | ok g =>
        rw [hmd] at h
        cases hrec : mergeList xs ys with
        | error e => rw [hrec] at h; exact absurd h (by simp)
        | ok mm =>
          rw [hrec] at h
          simp only [Except.ok.injEq] at h
          exact ⟨.obj g, mm, h.symm, rfl, Or.inr (Or.inl ⟨by simp, a, g, rfl, hmd, rfl⟩)⟩
    | null =>
      simp only [mergeList] at h
      cases hrec : mergeList xs ys with
      | error e => rw [hrec] at h; exact absurd h (by simp)
      | ok mm =>
        rw [hrec] at h
        simp only [Except.ok.injEq] at h
        exact ⟨_, mm, h.symm, rfl, Or.inr (Or.inr ⟨by simp, by simp, rfl⟩)⟩
    | bool c =>
      simp only [mergeList] at h
      cases hrec : mergeList xs ys with
      | error e => rw [hrec] at h; exact absurd h (by simp)
      | ok mm =>
        rw [hrec] at h
        simp only [Except.ok.injEq] at h
        exact ⟨_, mm, h.symm, rfl, Or.inr (Or.inr ⟨by simp, by simp, rfl⟩)⟩
    | int n =>
      simp only [mergeList] at h
      cases hrec : mergeList xs ys with
      | error e => rw [hrec] at h; exact absurd h (by simp)
      | ok mm =>
        rw [hrec] at h
        simp only [Except.ok.injEq] at h
        exact ⟨_, mm, h.symm, rfl, Or.inr (Or.inr ⟨by simp, by simp, rfl⟩)⟩
    | str t =>
      simp only [mergeList] at h
      cases hrec : mergeList xs ys with
      | error e => rw [hrec] at h; exact absurd h (by simp)
      | ok mm =>
        rw [hrec] at h
        simp only [Except.ok.injEq] at h
        exact ⟨_, mm, h.symm, rfl, Or.inr (Or.inr ⟨by simp, by simp, rfl⟩)⟩
    | list l =>
      simp only [mergeList] at h
      cases hrec : mergeList xs ys with
      | error e => rw [hrec] at h; exact absurd h (by simp)
      | ok mm =>
        rw [hrec] at h
        simp only [Except.ok.injEq] at h
        exact ⟨_, mm, h.symm, rfl, Or.inr (Or.inr ⟨by simp, by simp, rfl⟩)⟩
  | bool b0 =>
    cases x with
    | obj a =>
      simp only [mergeList] at h
      cases hmd : mergeObjAny a (Value.bool b0) with
      | error e => rw [hmd] at h; exact absurd h (by simp)
      | ok g =>
        rw [hmd] at h
        cases hrec : mergeList xs ys with
        | error e => rw [hrec] at h; exact absurd h (by simp)
        | ok mm =>
          rw [hrec] at h
          simp only [Except.ok.injEq] at h
          exact ⟨.obj g, mm, h.symm, rfl, Or.inr (Or.inl ⟨by simp, a, g, rfl, hmd, rfl⟩)⟩
    | null =>
      simp only [mergeList] at h
      cases hrec : mergeList xs ys with
      | error e => rw [hrec] at h; exact absurd h (by simp)
      | ok mm =>
        rw [hrec] at h
        simp only [Except.ok.injEq] at h
        exact ⟨_, mm, h.symm, rfl, Or.inr (Or.inr ⟨by simp, by simp, rfl⟩)⟩
    | bool c =>
      simp only [mergeList] at h
      cases hrec : mergeList xs ys with
      | error e => rw [hrec] at h; exact absurd h (by simp)
      | ok mm =>
        rw [hrec] at h
        simp only [Except.ok.injEq] at h
        exact ⟨_, mm, h.symm, rfl, Or.inr (Or.inr ⟨by simp, by simp, rfl⟩)⟩
    | int n =>
      simp only [mergeList] at h
      cases hrec : mergeList xs ys with
      | error e => rw [hrec] at h; exact absurd h (by simp)
      | ok mm =>
        rw [hrec] at h
        simp only [Except.ok.injEq] at h
        exact ⟨_, mm, h.symm, rfl, Or.inr (Or.inr ⟨by simp, by simp, rfl⟩)⟩
    | str t =>
      simp only [mergeList] at h
      cases hrec : mergeList xs ys with
      | error e => rw [hrec] at h; exact absurd h (by simp)
      | ok mm =>
        rw [hrec] at h
        simp only [Except.ok.injEq] at h
        exact ⟨_, mm, h.symm, rfl, Or.inr (Or.inr ⟨by simp, by simp, rfl⟩)⟩
    | list l =>
      simp only [mergeList] at h
      cases hrec : mergeList xs ys with
      | error e => rw [hrec] at h; exact absurd h (by simp)
      | ok mm =>
        rw [hrec] at h
        simp only [Except.ok.injEq] at h
        exact ⟨_, mm, h.symm, rfl, Or.inr (Or.inr ⟨by simp, by simp, rfl⟩)⟩
  | int n0 =>
    cases x with
    | obj a =>
      simp only [mergeList] at h
      cases hmd : mergeObjAny a (Value.int n0) with
      | error e => rw [hmd] at h; exact absurd h (by simp)
      | ok g =>
        rw [hmd] at h
        cases hrec : mergeList xs ys with
        | error e => rw [hrec] at h; exact absurd h (by simp)
        | ok mm =>
          rw [hrec] at h
          simp only [Except.ok.injEq] at h
          exact ⟨.obj g, mm, h.symm, rfl, Or.inr (Or.inl ⟨by simp, a, g, rfl, hmd, rfl⟩)⟩
    | null =>
      simp only [mergeList] at h
      cases hrec : mergeList xs ys with
      | error e => rw [hrec] at h; exact absurd h (by simp)
      | ok mm =>
        rw [hrec] at h
        simp only [Except.ok.injEq] at h
        exact ⟨_, mm, h.symm, rfl, Or.inr (Or.inr ⟨by simp, by simp, rfl⟩)⟩
    | bool c =>
      simp only [mergeList] at h
      cases hrec : mergeList xs ys with
      | error e => rw [hrec] at h; exact absurd h (by simp)
      | ok mm =>
        rw [hrec] at h
        simp only [Except.ok.injEq] at h
        exact ⟨_, mm, h.symm, rfl, Or.inr (Or.inr ⟨by simp, by simp, rfl⟩)⟩
    | int n =>
      simp only [mergeList] at h
      cases hrec : mergeList xs ys with
      | error e => rw [hrec] at h; exact absurd h (by simp)
      | ok mm =>
        rw [hrec] at h
        simp only [Except.ok.injEq] at h
        exact ⟨_, mm, h.symm, rfl, Or.inr (Or.inr ⟨by simp, by simp, rfl⟩)⟩
    | str t =>
      simp only [mergeList] at h
      cases hrec : mergeList xs ys with
      | error e => rw [hrec] at h; exact absurd h (by simp)
      | ok mm =>
        rw [hrec] at h
        simp only [Except.ok.injEq] at h
        exact ⟨_, mm, h.symm, rfl, Or.inr (Or.inr ⟨by simp, by simp, rfl⟩)⟩
    | list l =>
      simp only [mergeList] at h
      cases hrec : mergeList xs ys with
      | error e => rw [hrec] at h; exact absurd h (by simp)
      | ok mm =>
        rw [hrec] at h
        simp only [Except.ok.injEq] at h
        exact ⟨_, mm, h.symm, rfl, Or.inr (Or.inr ⟨by simp, by simp, rfl⟩)⟩
  | str t0 =>
    cases x with
    | obj a =>
      simp only [mergeList] at h
      cases hmd : mergeObjAny a (Value.str t0) with
      | error e => rw [hmd] at h; exact absurd h (by simp)
      | ok g =>
        rw [hmd] at h
        cases hrec : mergeList xs ys with
        | error e => rw [hrec] at h; exact absurd h (by simp)
        | ok mm =>
          rw [hrec] at h
          simp only [Except.ok.injEq] at h
          exact ⟨.obj g, mm, h.symm, rfl, Or.inr (Or.inl ⟨by simp, a, g, rfl, hmd, rfl⟩)⟩
    | null =>
      simp only [mergeList] at h
      cases hrec : mergeList xs ys with
      | error e => rw [hrec] at h; exact absurd h (by simp)
      | ok mm =>
        rw [hrec] at h
        simp only [Except.ok.injEq] at h
        exact ⟨_, mm, h.symm, rfl, Or.inr (Or.inr ⟨by simp, by simp, rfl⟩)⟩
    | bool c =>
      simp only [mergeList] at h
      cases hrec : mergeList xs ys with
      | error e => rw [hrec] at h; exact absurd h (by simp)
      | ok mm =>
        rw [hrec] at h
        simp only [Except.ok.injEq] at h
        exact ⟨_, mm, h.symm, rfl, Or.inr (Or.inr ⟨by simp, by simp, rfl⟩)⟩
    | int n =>
      simp only [mergeList] at h
      cases hrec : mergeList xs ys with
      | error e => rw [hrec] at h; exact absurd h (by simp)
      | ok mm =>
        rw [hrec] at h
        simp only [Except.ok.injEq] at h
        exact ⟨_, mm, h.symm, rfl, Or.inr (Or.inr ⟨by simp, by simp, rfl⟩)⟩
    | str t =>
      simp only [mergeList] at h
      cases hrec : mergeList xs ys with
      | error e => rw [hrec] at h; exact absurd h (by simp)
      | ok mm =>
        rw [hrec] at h
        simp only [Except.ok.injEq] at h
        exact ⟨_, mm, h.symm, rfl, Or.inr (Or.inr ⟨by simp, by simp, rfl⟩)⟩
    | list l =>
      simp only [mergeList] at h
      cases hrec : mergeList xs ys with
      | error e => rw [hrec] at h; exact absurd h (by simp)
      | ok mm =>
        rw [hrec] at h
        simp only [Except.ok.injEq] at h
        exact ⟨_, mm, h.symm, rfl, Or.inr (Or.inr ⟨by simp, by simp, rfl⟩)⟩
  | list l0 =>
    cases x with
    | obj a =>
      simp only [mergeList] at h
      cases hmd : mergeObjAny a (Value.list l0) with
      | error e => rw [hmd] at h; exact absurd h (by simp)
      | ok g =>
        rw [hmd] at h
        cases hrec : mergeList xs ys with
        | error e => rw [hrec] at h; exact absurd h (by simp)
        | ok mm =>
          rw [hrec] at h
          simp only [Except.ok.injEq] at h
          exact ⟨.obj g, mm, h.symm, rfl, Or.inr (Or.inl ⟨by simp, a, g, rfl, hmd, rfl⟩)⟩
    | null =>
      simp only [mergeList] at h
      cases hrec : mergeList xs ys with
      | error e => rw [hrec] at h; exact absurd h (by simp)
      | ok mm =>
        rw [hrec] at h
        simp only [Except.ok.injEq] at h
        exact ⟨_, mm, h.symm, rfl, Or.inr (Or.inr ⟨by simp, by simp, rfl⟩)⟩
    | bool c =>
      simp only [mergeList] at h
      cases hrec : mergeList xs ys with
      | error e => rw [hrec] at h; exact absurd h (by simp)
      | ok mm =>
        rw [hrec] at h
        simp only [Except.ok.injEq] at h
        exact ⟨_, mm, h.symm, rfl, Or.inr (Or.inr ⟨by simp, by simp, rfl⟩)⟩
    | int n =>
      simp only [mergeList] at h
      cases hrec : mergeList xs ys with
      | error e => rw [hrec] at h; exact absurd h (by simp)
      | ok mm =>
        rw [hrec] at h
        simp only [Except.ok.injEq] at h
        exact ⟨_, mm, h.symm, rfl, Or.inr (Or.inr ⟨by simp, by simp, rfl⟩)⟩
    | str t =>
      simp only [mergeList] at h
      cases hrec : mergeList xs ys with
      | error e => rw [hrec] at h; exact absurd h (by simp)
      | ok mm =>
        rw [hrec] at h
        simp only [Except.ok.injEq] at h
        exact ⟨_, mm, h.symm, rfl, Or.inr (Or.inr ⟨by simp, by simp, rfl⟩)⟩
    | list l =>
      simp only [mergeList] at h
      cases hrec : mergeList xs ys with
      | error e => rw [hrec] at h; exact absurd h (by simp)
      | ok mm =>
        rw [hrec] at h
        simp only [Except.ok.injEq] at h
        exact ⟨_, mm, h.symm, rfl, Or.inr (Or.inr ⟨by simp, by simp, rfl⟩)⟩

theorem mergeList_ok_spec :
    ∀ (s d m : List Value), s.length = d.length → mergeList s d = .ok m →
      m.length = d.length ∧
      ∀ i (hs : i < s.length) (hd : i < d.length) (hm : i < m.length),
        mergeSlotRel (s.get ⟨i, hs⟩) (d.get ⟨i, hd⟩) (m.get ⟨i, hm⟩) := by
  intro s
  induction s with
  | nil =>
    intro d m hl h
    rw [mergeList] at h
    simp only [Except.ok.injEq] at h
    refine ⟨?_, ?_⟩
    · rw [← h, ← hl]
    · intro i hs _ _; simp at hs
  | cons x xs ih =>
    intro d m hl h
    cases d with
    | nil => simp at hl
    | cons y ys =>
      have hl2 : xs.length = ys.length := by simpa using hl
      obtain ⟨hout, mm, hm1, hrec, hslot⟩ := mergeList_cons_ok h
      obtain ⟨hlen, hslots⟩ := ih ys mm hl2 hrec
      subst hm1
      refine ⟨by simp [hlen], ?_⟩
      intro i hs hd hm
      cases i with
      | zero => exact hslot
      | succ j =>
        exact hslots j (by simpa using hs) (by simpa using hd) (by simpa using hm)

/-! ## Drain loop lemmas (claims C5, C6 machinery) -/

theorem drainLoop_reads_le (replies : Nat → String) :
    ∀ (fuel idx : Nat) (cur : Option String),
      (drainLoop replies fuel idx cur).2 ≤ idx + fuel := by
  intro fuel
  induction fuel with
  | zero => intro idx cur; simp [drainLoop]
  | succ f ih =>
    intro idx cur
    by_cases h : replies idx = ""
    · simp [drainLoop, h] <;> omega
    · simp only [drainLoop, if_neg h]
      have := ih (idx + 1) (some (replies idx))
      omega

theorem drainLoop_first_empty (replies : Nat → String) :
    ∀ (k fuel idx : Nat) (cur : Option String), k < fuel →
      replies (idx + k) = "" → (∀ i, i < k → replies (idx + i) ≠ "") →
      drainLoop replies fuel idx cur =
        (if k = 0 then cur else some (replies (idx + k - 1)), idx + k + 1) := by
  intro k
  induction k with
  | zero =>
    intro fuel idx cur hk he _
    cases fuel with
    | zero => omega
    | succ f =>
      simp only [Nat.add_zero] at he
      simp [drainLoop, he]
  | succ j ih =>
    intro fuel idx cur hk he hne
    cases fuel with
    | zero => omega
    | succ f =>
      have h0 : replies idx ≠ "" := by simpa using hne 0 (by omega)
      have he2 : replies (idx + 1 + j) = "" := by
        have e : idx + 1 + j = idx + (j + 1) := by omega
        rw [e]; exact he
    
      have hne2 : ∀ i, i < j → replies (idx + 1 + i) ≠ "" := by
        intro i hi
        have e : idx + 1 + i = idx + (i + 1) := by omega
        rw [e]; exact hne (i + 1) (by omega)
      rw [drainLoop]
      simp only [h0, if_neg h0]
      rw [ih f (idx + 1) (some (replies idx)) (by omega) he2 hne2]
      by_cases hj : j = 0
      · subst hj; simp
      · have e1 : idx + 1 + j - 1 = idx + (j + 1) - 1 := by omega
        have e2 : idx + 1 + j + 1 = idx + (j + 1) + 1 := by omega
        simp [hj, e1, e2]

theorem drainLoop_all_nonempty (replies : Nat → String) :
    ∀ (fuel idx : Nat) (cur : Option String),
      (∀ i, i < fuel → replies (idx + i) ≠ "") →
      drainLoop replies fuel idx cur =
        (if fuel = 0 then cur else some (replies (idx + fuel - 1)), idx + fuel) := by
  intro fuel
  induction fuel with
  | zero => intro idx cur _; simp [drainLoop]
  | succ f ih =>
    intro idx cur hne
    have h0 : replies idx ≠ "" := by simpa using hne 0 (by omega)
    rw [drainLoop]
    simp only [h0, if_neg h0]
    rw [ih (idx + 1) (some (replies idx)) (fun i hi => by
      have e : idx + 1 + i = idx + (i + 1) := by omega
      rw [e]; exact hne (i + 1) (by omega))]
    by_cases hf : f = 0
    · subst hf; simp
    · have e1 : idx + 1 + f - 1 = idx + (f + 1) - 1 := by omega
      have e2 : idx + 1 + f = idx + (f + 1) := by omega
      simp [hf, e1, e2]

/-! ## Tick machinery lemmas (claims C1, C4, C7, C9, C10) -/

theorem containsKey_filter_false {α : Type} (f : String × α → Bool) :
    ∀ {d : AList α} {k : String}, containsKey d k = false →
      containsKey (d.filter f) k = false := by
  intro d
  induction d with
  | nil => intro k _; simp [containsKey, lookupA]
  | cons hd tl ih =>
    intro k h
    obtain ⟨k0, v0⟩ := hd
    rw [containsKey_cons] at h
    simp only [Bool.or_eq_false_iff, decide_eq_false_iff_not] at h
    rw [List.filter_cons]
    by_cases hf : f (k0, v0) = true
    · simp only [hf, if_true]
      rw [containsKey_cons]
      simp [h.1, ih h.2]
    · simp only [Bool.not_eq_true] at hf
      simp only [hf, Bool.false_eq_true, if_false]
      exact ih h.2

theorem nodupKeysB_filter {α : Type} (f : String × α → Bool) :
    ∀ {d : AList α}, nodupKeysB d = true → nodupKeysB (d.filter f) = true := by
  intro d
  induction d with
  | nil => intro _; simp [nodupKeysB]
  | cons hd tl ih =>
    intro h
    obtain ⟨k0, v0⟩ := hd
    simp only [nodupKeysB, Bool.and_eq_true, Bool.not_eq_true'] at h
    rw [List.filter_cons]
    by_cases hf : f (k0, v0) = true
    · simp only [hf, if_true, nodupKeysB, Bool.and_eq_true, Bool.not_eq_true']
      exact ⟨containsKey_filter_false f h.1, ih h.2⟩
    · simp only [Bool.not_eq_true] at hf
      simp only [hf, Bool.false_eq_true, if_false]
      exact ih h.2

theorem lookupA_filter {α : Type} (f : String × α → Bool) :
    ∀ (d : AList α), nodupKeysB d = true → ∀ (k : String) (v : α),
      (lookupA (d.filter f) k = some v ↔ lookupA d k = some v ∧ f (k, v) = true) := by
  intro d
  induction d with
  | nil => intro _ k v; simp [lookupA]
  | cons hd tl ih =>
    intro hnd k v
    obtain ⟨k0, v0⟩ := hd
    simp only [nodupKeysB, Bool.and_eq_true, Bool.not_eq_true'] at hnd
    by_cases hk : k0 = k
    · subst hk
      by_cases hf : f (k0, v0) = true
      · rw [List.filter_cons]
        simp only [hf, if_true]
        constructor
        · intro h
          simp only [lookupA, if_true, eq_self_iff_true, Option.some.injEq] at h
          subst h
          exact ⟨by simp [lookupA], hf⟩
        · intro h
          have hv : v0 = v := by
            have h1 := h.1
            simp only [lookupA, if_true, eq_self_iff_true, Option.some.injEq] at h1
            exact h1
          subst hv
          simp [lookupA]
      · simp only [Bool.not_eq_true] at hf
        rw [List.filter_cons]
        simp only [hf, Bool.false_eq_true, if_false]
        have hnone : lookupA (tl.filter f) k0 = none :=
          lookupA_eq_none_of_not_contains (containsKey_filter_false f hnd.1)
        rw [hnone]
        constructor
        · intro h; cases h
        · intro h
          have hv : v0 = v := by
            have h1 := h.1
            simp only [lookupA, if_true, eq_self_iff_true, Option.some.injEq] at h1
            exact h1
          subst hv
          rw [hf] at h
          cases h.2
    · have hskip : lookupA ((k0, v0) :: tl) k = lookupA tl k := by
        rw [lookupA]; simp [hk]
      rw [hskip, List.filter_cons]
      by_cases hf : f (k0, v0) = true
      · simp only [hf, if_true]
        have hskip2 : lookupA ((k0, v0) :: tl.filter f) k = lookupA (tl.filter f) k := by
          rw [lookupA]; simp [hk]
        rw [hskip2]
        exact ih hnd.2 k v
      · simp only [Bool.not_eq_true] at hf
        simp only [hf, Bool.false_eq_true, if_false]
        exact ih hnd.2 k v

theorem seqChanges_lookup {old newSeqs : AList Int} (hnd : nodupKeysB newSeqs = true)
    (k : String) (v : Int) :
    lookupA (seqChanges old newSeqs) k = some v ↔
      (lookupA newSeqs k = some v ∧ ∃ w, lookupA old k = some w ∧ w ≠ v) := by
  rw [seqChanges, lookupA_filter _ newSeqs hnd k v]
  constructor
  · rintro ⟨h1, h2⟩
    refine ⟨h1, ?_⟩
    cases ho : lookupA old k with
    | none => rw [ho] at h2; simp at h2
    | some w =>
      rw [ho] at h2
      simp only [decide_eq_true_eq] at h2
      exact ⟨w, rfl, h2⟩
  · rintro ⟨h1, w, hw, hne⟩
    refine ⟨h1, ?_⟩
    rw [hw]
    simpa using hne

theorem processChanges_cons_reply (t : Transport) (om : AList Value) (v0 : Int)
    (rest : AList Int) :
    processChanges t om (("reply", v0) :: rest) = processChanges t om rest := by
  simp [processChanges]

theorem processChanges_cons_err (t : Transport) (om : AList Value) {k0 : String}
    (v0 : Int) (rest : AList Int) {e : TErr} (hr : k0 ≠ "reply")
    (hf : t.fetchKey k0 = .error e) :
    processChanges t om ((k0, v0) :: rest) = (om, .error e) := by
  simp [processChanges, hr, hf]

theorem processChanges_cons_fetch (t : Transport) (om : AList Value) {k0 : String}
    (v0 : Int) (rest : AList Int) {u : Value} (hr : k0 ≠ "reply")
    (hf : t.fetchKey k0 = .ok u) :
    processChanges t om ((k0, v0) :: rest) = processChanges t (insertA om k0 u) rest := by
  simp [processChanges, hr, hf]

theorem processChanges_frame (t : Transport) :
    ∀ (changes : AList Int) (om : AList Value) (k : String),
      containsKey changes k = false →
      lookupA (processChanges t om changes).1 k = lookupA om k := by
  intro changes
  induction changes with
  | nil => intro om k _; simp [processChanges]
  | cons hd tl ih =>
    intro om k hnc
    obtain ⟨k0, v0⟩ := hd
    rw [containsKey_cons] at hnc
    simp only [Bool.or_eq_false_iff, decide_eq_false_iff_not] at hnc
    by_cases hr : k0 = "reply"
    · subst hr
      rw [processChanges_cons_reply]
      exact ih om k hnc.2
    · cases hf : t.fetchKey k0 with
      | error e => rw [processChanges_cons_err t om v0 tl hr hf]
      | ok v =>
        rw [processChanges_cons_fetch t om v0 tl hr hf,
          ih (insertA om k0 v) k hnc.2, lookupA_insertA_ne om hnc.1 v]

theorem processChanges_ok (t : Transport) :
    ∀ (changes : AList Int) (om : AList Value),
      (∀ k, containsKey changes k = true → k ≠ "reply" → ∃ u, t.fetchKey k = .ok u) →
      (processChanges t om changes).2 = .ok () := by
  intro changes
  induction changes with
  | nil => intro om _; simp [processChanges]
  | cons hd tl ih =>
    intro om hall
    obtain ⟨k0, v0⟩ := hd
    have hall2 : ∀ k, containsKey tl k = true → k ≠ "reply" → ∃ u, t.fetchKey k = .ok u := by
      intro k hc hk
      exact hall k (by rw [containsKey_cons, hc]; simp) hk
    by_cases hr : k0 = "reply"
    · subst hr
      rw [processChanges_cons_reply]
      exact ih om hall2
    · obtain ⟨u, hu⟩ := hall k0 (by rw [containsKey_cons]; simp) hr
      rw [processChanges_cons_fetch t om v0 tl hr hu]
      exact ih (insertA om k0 u) hall2

theorem processChanges_lookup (t : Transport) :
    ∀ (changes : AList Int) (om : AList Value) (k : String) (u : Value),
      nodupKeysB changes = true → containsKey changes k = true → k ≠ "reply" →
      (∀ k2, containsKey changes k2 = true → k2 ≠ "reply" → ∃ w, t.fetchKey k2 = .ok w) →
      t.fetchKey k = .ok u →
      lookupA (processChanges t om changes).1 k = some u := by
  intro changes
  induction changes with
  | nil => intro om k u _ hc _ _ _; simp [containsKey, lookupA] at hc
  | cons hd tl ih =>
    intro om k u hnd hc hk hall hfetch
    obtain ⟨k0, v0⟩ := hd
    simp only [nodupKeysB, Bool.and_eq_true, Bool.not_eq_true'] at hnd
    have hall2 : ∀ k2, containsKey tl k2 = true → k2 ≠ "reply" → ∃ w, t.fetchKey k2 = .ok w := by
      intro k2 hc2 hk2
      exact hall k2 (by rw [containsKey_cons, hc2]; simp) hk2
    by_cases hr : k0 = "reply"
    · have hkk : k0 ≠ k := fun hkk => hk (hkk ▸ hr)
      rw [containsKey_cons] at hc
      have hc2 : containsKey tl k = true := by
        rcases Bool.or_eq_true_iff.mp hc with h | h
        · exact absurd (of_decide_eq_true h) hkk
        · exact h
      subst hr
      rw [processChanges_cons_reply]
      exact ih om k u hnd.2 hc2 hk hall2 hfetch
    · obtain ⟨w0, hw0⟩ := hall k0 (by rw [containsKey_cons]; simp) hr
      rw [processChanges_cons_fetch t om v0 tl hr hw0]
      by_cases hkk : k0 = k
      · subst hkk
        have huw : w0 = u := by
          rw [hfetch] at hw0; injection hw0 with h2; exact h2.symm
        subst huw
        rw [processChanges_frame t tl (insertA om k0 w0) k0 hnd.1]
        exact lookupA_insertA_self om k0 w0
      · rw [containsKey_cons] at hc
        have hc2 : containsKey tl k = true := by
          rcases Bool.or_eq_true_iff.mp hc with h | h
          · exact absurd (of_decide_eq_true h) hkk
          · exact h
        exact ih (insertA om k0 w0) k u hnd.2 hc2 hk hall2 hfetch

theorem handleCore_false_spec (t : Transport) (p : Printer) (d : AList Value)
    (changes : AList Int) :
    handleCore t p d changes false =
      ({ p with om := some (processChanges t d (popA changes "volChanges")).1 },
        (processChanges t d (popA changes "volChanges")).2) := by
  simp [handleCore]

theorem handle_false_spec (t : Transport) (p : Printer) (d : AList Value)
    (changes : AList Int) :
    handle_om_changes t p d changes false =
      if containsKey changes "reply" then
        match t.rrReply with
        | .error e => (p, .error e)
        | .ok r =>
          ({ p with
              reply := some r
              om := some (processChanges t d (popA changes "volChanges")).1 },
            (processChanges t d (popA changes "volChanges")).2)
      else
        ({ p with om := some (processChanges t d (popA changes "volChanges")).1 },
          (processChanges t d (popA changes "volChanges")).2) := by
  rw [handle_om_changes]
  by_cases hr : containsKey changes "reply"
  · simp only [hr, if_true]
    cases t.rrReply with
    | error e => simp
    | ok r => simp [handleCore_false_spec]
  · simp only [hr, Bool.false_eq_true, if_false]
    simp [handleCore_false_spec]

theorem tick_poll_spec (t : Transport) (p : Printer) (d : AList Value)
    (old newSeqs : AList Int) (hom : p.om = some d) (hseq : p.seqs = some old)
    (hpoll : t.pollSeqs = .ok newSeqs) :
    tick t p = if (seqChanges old newSeqs).isEmpty
      then ({ p with seqs := some newSeqs }, .ok ())
      else handle_om_changes t { p with seqs := some newSeqs } d
        (seqChanges old newSeqs) false := by
  rw [tick, hom, hpoll, hseq]
  simp [Option.isNone]

/-! ## Claim C1: first tick and the establishment of om and seqs -/

/-- C1 (amended): for every printer state with `om = None`, a successful `tick()`
performs the full recursive fetch and sets `om` to its result — but it does NOT
establish the SequenceCounters: `seqs` (and `_reply`) are left exactly as they
were, so from the initial state `seqs` is still `None` after the first tick and
is only established by the seqs poll of a later tick. -/
theorem C1_first_tick_om_only (t : Transport) (p : Printer)
    (r : AList Value) (hom : p.om = none) (hfs : t.fullStatus = .ok r) :
    (tick t p).1.om = some r ∧ (tick t p).1.seqs = p.seqs ∧
      (tick t p).1.reply = p.reply ∧ (tick t p).2 = .ok () := by
  simp [tick, hom, hfs]

/-- C1 witness: the amended theorem applied to the initial state and a transport
whose full fetch returns `{"state": null}`. -/
theorem C1_first_tick_om_only_witness :
    (tick ⟨.ok [("state", Value.null)], .ok [], fun _ => .ok .null, .ok ""⟩
        ⟨none, none, none⟩).1.om = some [("state", Value.null)] ∧
    (tick ⟨.ok [("state", Value.null)], .ok [], fun _ => .ok .null, .ok ""⟩
        ⟨none, none, none⟩).1.seqs = (⟨none, none, none⟩ : Printer).seqs ∧
    (tick ⟨.ok [("state", Value.null)], .ok [], fun _ => .ok .null, .ok ""⟩
        ⟨none, none, none⟩).1.reply = (⟨none, none, none⟩ : Printer).reply ∧
    (tick ⟨.ok [("state", Value.null)], .ok [], fun _ => .ok .null, .ok ""⟩
        ⟨none, none, none⟩).2 = .ok () :=
  C1_first_tick_om_only _ _ [("state", Value.null)] rfl rfl

/-- C1 counterexample: from the initial state (`om = None`, `seqs = None`), one
successful tick returns with `om` defined but `seqs` still `None` — refuting the
claim that the first tick establishes both together. -/
theorem C1_counterexample :
    (tick ⟨.ok [("state", Value.null)], .ok [], fun _ => .ok .null, .ok ""⟩
        ⟨none, none, none⟩).2 = .ok () ∧
    (tick ⟨.ok [("state", Value.null)], .ok [], fun _ => .ok .null, .ok ""⟩
        ⟨none, none, none⟩).1.om = some [("state", Value.null)] ∧
    (tick ⟨.ok [("state", Value.null)], .ok [], fun _ => .ok .null, .ok ""⟩
        ⟨none, none, none⟩).1.seqs = none :=
  ⟨rfl, rfl, rfl⟩

/-! ## Claim C4: sequence counters after a failed subtree fetch -/

/-- C4 (amended): `tick` stores the freshly polled SequenceCounters
unconditionally, BEFORE any subtree fetch is attempted, so even when every
subtree fetch fails the stored counters already hold the new values.  A key
whose fetch failed therefore does NOT keep its previous counter and is not
re-fetched by a later tick. -/
theorem C4_seqs_advance_unconditionally (t : Transport) (p : Printer)
    (d : AList Value) (old newSeqs : AList Int) (hom : p.om = some d)
    (hseq : p.seqs = some old) (hpoll : t.pollSeqs = .ok newSeqs) :
    (tick t p).1.seqs = some newSeqs := by
  rw [tick_poll_spec t p d old newSeqs hom hseq hpoll]
  by_cases he : (seqChanges old newSeqs).isEmpty = true
  · simp [he]
  · simp only [he, Bool.false_eq_true, if_false]
    rw [handle_false_spec]
    by_cases hr : containsKey (seqChanges old newSeqs) "reply" = true
    · simp only [hr, if_true]
      cases t.rrReply <;> simp
    · simp [hr]

/-- C4 witness: a printer with stored counter `{"job": 1}`, a poll returning
`{"job": 2}` and a transport whose subtree fetches all fail still ends the tick
with stored counters `{"job": 2}`. -/
theorem C4_seqs_advance_unconditionally_witness :
    (tick ⟨.ok [], .ok [("job", 2)], fun _ => .error (.transport "timeout"), .ok ""⟩
        ⟨some [("job", Value.null)], some [("job", 1)], none⟩).1.seqs
      = some [("job", 2)] :=
  C4_seqs_advance_unconditionally _ _ [("job", Value.null)] [("job", 1)] [("job", 2)]
    rfl rfl rfl

/-- C4 counterexample: stored counters `{"job": 1}`, new poll `{"job": 2}`, and
the subtree fetch for `"job"` fails; the tick propagates the transport error,
yet the stored counter for `"job"` is 2 (the new value), not 1 (the previous
value) — refuting the claim that counters are not advanced for failed keys. -/
theorem C4_counterexample :
    (tick ⟨.ok [], .ok [("job", 2)], fun _ => .error (.transport "timeout"), .ok ""⟩
        ⟨some [("job", Value.null)], some [("job", 1)], none⟩).2
      = .error (.transport "timeout") ∧
    (tick ⟨.ok [], .ok [("job", 2)], fun _ => .error (.transport "timeout"), .ok ""⟩
        ⟨some [("job", Value.null)], some [("job", 1)], none⟩).1.seqs
      = some [("job", 2)] ∧
    some [("job", (2 : Int))] ≠ some [("job", (1 : Int))] :=
  ⟨rfl, rfl, by decide⟩

/-! ## Claim C5: overload drain whose first read is empty -/

/-- C5 (amended): when the first `fetchReply` read of the overload drain returns
the empty string, the drain retains nothing, performs exactly one read, and sets
the ready signal — but the pending reply slot keeps whatever value it held
before the callback, so a waiter observes the previously stored reply text, not
empty text. -/
theorem C5_drain_first_empty (replies : Nat → String) (reply0 : Option String)
    (h : replies 0 = "") :
    http_503_callback replies reply0 = ⟨reply0, 1, true⟩ := by
  have hd := drainLoop_first_empty replies 0 10 0 reply0 (by omega) (by simpa using h)
    (fun i hi => absurd hi (by omega))
  rw [http_503_callback]
  simp [hd]

/-- C5 witness: the amended theorem applied to a stream whose first read is
empty and a previously stored reply `"old"`. -/
theorem C5_drain_first_empty_witness :
    http_503_callback (fun _ => "") (some "old") = ⟨some "old", 1, true⟩ :=
  C5_drain_first_empty (fun _ => "") (some "old") rfl

/-- C5 counterexample: with `"previous"` already stored in the reply slot and a
first read returning the empty string, the callback sets the signal after one
read but the retained reply observed by waiters is `"previous"`, not the empty
string — refuting the claim that the retained reply value is empty. -/
theorem C5_counterexample :
    (http_503_callback (fun _ => "") (some "previous")).reply = some "previous" ∧
    (http_503_callback (fun _ => "") (some "previous")).reads = 1 ∧
    (http_503_callback (fun _ => "") (some "previous")).signalPulsed = true ∧
    some "previous" ≠ some "" :=
  ⟨rfl, rfl, rfl, by decide⟩

/-! ## Claim C6: overload drain bounds and retention -/

/-- C6: for every reply stream, the overload drain performs at most 10 reads;
if the first empty read is read number `k + 1` (with `k < 10`), the drain stops
right there after exactly `k + 1` reads and, when at least one non-empty value
was read, retains the last non-empty value read; and after 10 consecutive
non-empty reads it stops at 10 reads — without an 11th — retaining the 10th
reply text. -/
theorem C6_drain_bounds (replies : Nat → String) (reply0 : Option String) :
    (http_503_callback replies reply0).reads ≤ 10 ∧
    (∀ k, k < 10 → replies k = "" → (∀ i, i < k → replies i ≠ "") →
      (http_503_callback replies reply0).reads = k + 1 ∧
      (0 < k → (http_503_callback replies reply0).reply = some (replies (k - 1)))) ∧
    ((∀ i, i < 10 → replies i ≠ "") →
      (http_503_callback replies reply0).reads = 10 ∧
      (http_503_callback replies reply0).reply = some (replies 9)) := by
  refine ⟨?_, ?_, ?_⟩
  · have h := drainLoop_reads_le replies 10 0 reply0
    show (drainLoop replies 10 0 reply0).2 ≤ 10
    simpa using h
  · intro k hk he hne
    have hd := drainLoop_first_empty replies k 10 0 reply0 hk (by simpa using he)
      (by simpa using hne)
    constructor
    · show (drainLoop replies 10 0 reply0).2 = k + 1
      rw [hd]
      simp
    · intro hpos
      show (drainLoop replies 10 0 reply0).1 = some (replies (k - 1))
      rw [hd]
      simp [Nat.pos_iff_ne_zero.mp hpos]
  · intro hne
    have hd := drainLoop_all_nonempty replies 10 0 reply0 (by simpa using hne)
    constructor
    · show (drainLoop replies 10 0 reply0).2 = 10
      rw [hd]
    · show (drainLoop replies 10 0 reply0).1 = some (replies 9)
      rw [hd]
      simp

/-- C6 witness: on a stream of 10 (indeed endless) non-empty replies `"x"`, the
drain performs exactly 10 reads and retains the 10th reply text. -/
theorem C6_drain_bounds_witness :
    (http_503_callback (fun _ => "x") none).reads = 10 ∧
    (http_503_callback (fun _ => "x") none).reply = some "x" :=
  (C6_drain_bounds (fun _ => "x") none).2.2 (fun i _ => by decide)

/-! ## Claim C8: idempotence of the merge -/

/-- C8: for every mapping `x` on which the merge is defined — embedded as any
association list whose dicts all have pairwise-distinct keys, the invariant
every Python dict satisfies — `merge_dictionary x x = x` (and in particular the
merge succeeds). -/
theorem C8_merge_idempotent (x : AList Value) (h : wfDict x = true) :
    merge_dictionary x x = .ok x :=
  (merge_self_all (sizeOf x + 1)).1 x (Nat.lt_succ_self _) h

/-- C8 witness: idempotence evaluated on a concrete mapping containing a scalar,
a nested dict, and an array with a null slot, an int slot and a dict slot. -/
theorem C8_merge_idempotent_witness :
    wfDict [("a", Value.int 1), ("b", Value.obj [("c", Value.int 2)]),
      ("d", Value.list [Value.null, Value.int 3, Value.obj [("e", Value.str "t")]])] = true ∧
    merge_dictionary
      [("a", Value.int 1), ("b", Value.obj [("c", Value.int 2)]),
        ("d", Value.list [Value.null, Value.int 3, Value.obj [("e", Value.str "t")]])]
      [("a", Value.int 1), ("b", Value.obj [("c", Value.int 2)]),
        ("d", Value.list [Value.null, Value.int 3, Value.obj [("e", Value.str "t")]])]
      = .ok [("a", Value.int 1), ("b", Value.obj [("c", Value.int 2)]),
        ("d", Value.list [Value.null, Value.int 3, Value.obj [("e", Value.str "t")]])] :=
  ⟨by simp [wfDict, wfValue, wfList, containsKey, lookupA, nodupKeysB],
    C8_merge_idempotent _
      (by simp [wfDict, wfValue, wfList, containsKey, lookupA, nodupKeysB])⟩

/-! ## Claim C2: equal-length array merge, element-wise behaviour -/

/-- C2 (amended): for a key bound to equal-length non-empty lists on both
sides of a successful merge, the merged value for that key is the element-wise
merge of the two lists: it has the destination's length, a slot whose
destination element is null keeps the SOURCE element, a slot whose source
element is a mapping holds `merge_dictionary(item, dest_value[idx])` — the
ordinary recursive merge for a mapping destination element, and Python's
`dict()`/attribute semantics otherwise (e.g. an empty source mapping against a
list of key/value pairs succeeds with the dict built from those pairs) — and
every other slot holds the SOURCE element (the destination element is
discarded), as captured by `mergeSlotRel`. -/
theorem C2_equal_length_elementwise (source destination r : AList Value)
    (k : String) (s d : List Value)
    (hnds : nodupKeysB source = true) (hndd : nodupKeysB destination = true)
    (hs : lookupA source k = some (.list s))
    (hd : lookupA destination k = some (.list d))
    (hlen : s.length = d.length) (hnz : d.length ≠ 0)
    (hok : merge_dictionary source destination = .ok r) :
    ∃ m, mergeList s d = .ok m ∧ lookupA r k = some (.list m) ∧
      m.length = d.length ∧
      ∀ i (his : i < s.length) (hid : i < d.length) (him : i < m.length),
        mergeSlotRel (s.get ⟨i, his⟩) (d.get ⟨i, hid⟩) (m.get ⟨i, him⟩) := by
  obtain ⟨w, pops, hw, hpf⟩ := merge_dictionary_ok_lookup hok hnds hndd (mem_of_lookupA hs)
  rw [hd] at hw
  have h1 : ¬ d.length < s.length := by omega
  have h2 : ¬ s.length < d.length := by omega
  simp only [mergeValue, pyLen] at hw
  rw [if_neg hnz, if_neg h1, if_neg h2] at hw
  cases hml : mergeList s d with
  | error e => rw [hml] at hw; simp at hw
  | ok m =>
    rw [hml] at hw
    simp only [Except.ok.injEq, Prod.mk.injEq] at hw
    obtain ⟨hlen2, hslots⟩ := mergeList_ok_spec s d m hlen hml
    refine ⟨m, rfl, ?_, hlen2, hslots⟩
    rw [hpf hw.2.symm, ← hw.1]

/-- C2 witness: the amended theorem on the concrete merge of
`{"a": [1, null, {"x": 7}]}` into `{"a": [5, null, {"x": 9}]}`, whose result is
`{"a": [1, null, {"x": 9}]}` — source elements survive in the scalar and
null-destination slots, the dict slot is merged recursively. -/
theorem C2_equal_length_elementwise_witness :
    merge_dictionary
        [("a", Value.list [Value.int 1, Value.null, Value.obj [("x", Value.int 7)]])]
        [("a", Value.list [Value.int 5, Value.null, Value.obj [("x", Value.int 9)]])]
      = .ok [("a", Value.list [Value.int 1, Value.null, Value.obj [("x", Value.int 9)]])] ∧
    (∃ m, mergeList [Value.int 1, Value.null, Value.obj [("x", Value.int 7)]]
        [Value.int 5, Value.null, Value.obj [("x", Value.int 9)]] = .ok m ∧
      lookupA [("a", Value.list [Value.int 1, Value.null, Value.obj [("x", Value.int 9)]])]
        "a" = some (.list m) ∧
      m.length = [Value.int 5, Value.null, Value.obj [("x", Value.int 9)]].length ∧
      ∀ i (his : i < [Value.int 1, Value.null, Value.obj [("x", Value.int 7)]].length)
        (hid : i < [Value.int 5, Value.null, Value.obj [("x", Value.int 9)]].length)
        (him : i < m.length),
        mergeSlotRel ([Value.int 1, Value.null, Value.obj [("x", Value.int 7)]].get ⟨i, his⟩)
          ([Value.int 5, Value.null, Value.obj [("x", Value.int 9)]].get ⟨i, hid⟩)
          (m.get ⟨i, him⟩)) := by
  have hok : merge_dictionary
      [("a", Value.list [Value.int 1, Value.null, Value.obj [("x", Value.int 7)]])]
      [("a", Value.list [Value.int 5, Value.null, Value.obj [("x", Value.int 9)]])]
      = .ok [("a", Value.list [Value.int 1, Value.null, Value.obj [("x", Value.int 9)]])] := by
    simp [merge_dictionary, mergeEntries, mergeValue, mergeObjAny, mergeList, pyLen,
      lookupA, insertA, popA, updateA]
  exact ⟨hok, C2_equal_length_elementwise
    [("a", Value.list [Value.int 1, Value.null, Value.obj [("x", Value.int 7)]])]
    [("a", Value.list [Value.int 5, Value.null, Value.obj [("x", Value.int 9)]])]
    [("a", Value.list [Value.int 1, Value.null, Value.obj [("x", Value.int 9)]])] "a"
    [Value.int 1, Value.null, Value.obj [("x", Value.int 7)]]
    [Value.int 5, Value.null, Value.obj [("x", Value.int 9)]]
    rfl rfl rfl rfl rfl (by decide) hok⟩

/-- C2 counterexample: merging `{"a": [1, 3]}` into `{"a": [2, null]}` yields
`{"a": [1, 3]}` — the non-null destination element 2 is NOT kept (the claim
predicts the result slot holds the destination's element 2, and that the
null-destination slot keeps the destination's null). -/
theorem C2_counterexample :
    merge_dictionary [("a", Value.list [Value.int 1, Value.int 3])]
        [("a", Value.list [Value.int 2, Value.null])]
      = .ok [("a", Value.list [Value.int 1, Value.int 3])] ∧
    (Except.ok [("a", Value.list [Value.int 1, Value.int 3])]
        : Except MergeErr (AList Value)) ≠
      .ok [("a", Value.list [Value.int 2, Value.null])] := by
  constructor
  · simp [merge_dictionary, mergeEntries, mergeValue, mergeObjAny, mergeList, pyLen,
      lookupA, insertA, popA, updateA]
  · simp

/-! ## Claim C3: longer source array -/

/-- C3 (amended): whenever source and destination share a key bound on both
sides to lists with the destination list NON-EMPTY and the source list strictly
longer, the merge fails with an error (the length-mismatch `ValueError` when
that key is the first failure the pass encounters) and never returns a merged
result.  The non-emptiness bound is necessary: against an EMPTY destination
list no error is raised for the key at all — the `continue` of line 31 also
skips `dk.pop`, so `result.update(dk)` overwrites the provisionally stored
source list with the destination's empty list (see the counterexample). -/
theorem C3_longer_source_fails (source destination : AList Value)
    (k : String) (s d : List Value)
    (hs : lookupA source k = some (.list s))
    (hd : lookupA destination k = some (.list d))
    (hnz : d.length ≠ 0) (hlen : d.length < s.length) :
    ∃ e, merge_dictionary source destination = .error e := by
  have hv : mergeValue k (.list s) (lookupA destination k)
      = .error (.lengthMismatch k) := by
    rw [hd]
    simp only [mergeValue, pyLen]
    rw [if_neg hnz, if_pos hlen]
  exact merge_dictionary_error_of_entry (mem_of_lookupA hs) hv

/-- C3 witness: merging `{"a": [1, 2]}` into `{"a": [3]}` fails. -/
theorem C3_longer_source_fails_witness :
    ∃ e, merge_dictionary [("a", Value.list [Value.int 1, Value.int 2])]
      [("a", Value.list [Value.int 3])] = .error e :=
  C3_longer_source_fails _ _ "a" [Value.int 1, Value.int 2] [Value.int 3]
    rfl rfl (by decide) (by decide)

/-- C3 counterexample: the source list `[1]` is strictly longer than the
destination list `[]`, yet the merge succeeds — no length-mismatch `ValueError`
is raised when the destination list is empty, refuting the unconditional
claim.  (The skipped `dk.pop` makes `result.update(dk)` restore the
destination's empty list, so the result is `{"a": []}`.) -/
theorem C3_counterexample :
    merge_dictionary [("a", Value.list [Value.int 1])] [("a", Value.list [])]
      = .ok [("a", Value.list [])] ∧
    (Except.ok [("a", Value.list [])] : Except MergeErr (AList Value)) ≠
      .error (.lengthMismatch "a") := by
  constructor
  · simp [merge_dictionary, mergeEntries, mergeValue, pyLen, lookupA, insertA, popA,
      updateA]
  · simp

/-! ## Claim C7: the per-tick change diff -/

/-- C7: with stored counters present, a key/value pair of the fresh poll is in
the change set iff the key is present in BOTH the stored snapshot and the fresh
poll with differing values; keys absent from the stored snapshot are never
surfaced; and when the change set is empty the tick — for EVERY transport whose
seqs poll returns `newSeqs`, in particular one whose subtree fetches and reply
fetches all fail — just stores the new counters and returns successfully, with
the baseline om (and everything else) unchanged: no further fetch happens. -/
theorem C7_changes_diff (t : Transport) (p : Printer) (d : AList Value)
    (old newSeqs : AList Int) (hom : p.om = some d) (hseq : p.seqs = some old)
    (hpoll : t.pollSeqs = .ok newSeqs) (hnd : nodupKeysB newSeqs = true) :
    (∀ k v, lookupA (seqChanges old newSeqs) k = some v ↔
      (lookupA newSeqs k = some v ∧ ∃ w, lookupA old k = some w ∧ w ≠ v)) ∧
    (∀ k, lookupA old k = none → lookupA (seqChanges old newSeqs) k = none) ∧
    ((seqChanges old newSeqs).isEmpty = true →
      tick t p = ({ p with seqs := some newSeqs }, .ok ())) := by
  refine ⟨fun k v => seqChanges_lookup hnd k v, ?_, ?_⟩
  · intro k hnone
    cases hl : lookupA (seqChanges old newSeqs) k with
    | none => rfl
    | some v =>
      obtain ⟨_, w, hw, _⟩ := (seqChanges_lookup hnd k v).mp hl
      rw [hnone] at hw
      cases hw
  · intro he
    rw [tick_poll_spec t p d old newSeqs hom hseq hpoll]
    simp [he]

/-- C7 witness: with stored counters `{"reply": 5, "job": 2}`, a poll returning
`{"reply": 5, "job": 3, "fans": 7}` surfaces exactly `job` (changed value) and
not `fans` (no prior counter); and an identical poll `{"reply": 5, "job": 2}`
makes the tick a no-op that succeeds even on a transport whose subtree and
reply fetches all fail. -/
theorem C7_changes_diff_witness :
    lookupA (seqChanges [("reply", 5), ("job", 2)]
      [("reply", 5), ("job", 3), ("fans", 7)]) "job" = some 3 ∧
    lookupA (seqChanges [("reply", 5), ("job", 2)]
      [("reply", 5), ("job", 3), ("fans", 7)]) "fans" = none ∧
    tick ⟨.ok [], .ok [("reply", 5), ("job", 2)],
        fun _ => .error (.transport "t"), .error (.transport "t")⟩
      ⟨some [], some [("reply", 5), ("job", 2)], none⟩
      = ({ om := some [], seqs := some [("reply", 5), ("job", 2)], reply := none },
        .ok ()) := by
  have W := C7_changes_diff
    ⟨.ok [], .ok [("reply", 5), ("job", 3), ("fans", 7)],
      fun _ => .error (.transport "t"), .error (.transport "t")⟩
    ⟨some [], some [("reply", 5), ("job", 2)], none⟩
    [] [("reply", 5), ("job", 2)] [("reply", 5), ("job", 3), ("fans", 7)]
    rfl rfl rfl (by decide)
  have W2 := C7_changes_diff
    ⟨.ok [], .ok [("reply", 5), ("job", 2)],
      fun _ => .error (.transport "t"), .error (.transport "t")⟩
    ⟨some [], some [("reply", 5), ("job", 2)], none⟩
    [] [("reply", 5), ("job", 2)] [("reply", 5), ("job", 2)]
    rfl rfl rfl (by decide)
  exact ⟨(W.1 "job" 3).mpr ⟨rfl, 2, rfl, by decide⟩, W.2.1 "fans" rfl,
    W2.2.2 (by decide)⟩

/-! ## Claims C9, C10: the per-key fetch loop -/

/-- Unfolds a tick with stored counters and a non-empty change set down to
`processChanges` over the change set with `volChanges` popped, given that the
reply fetch succeeds whenever `reply` is among the changes. -/
theorem tick_changes_result (t : Transport) (p : Printer) (d : AList Value)
    (old newSeqs : AList Int) (hom : p.om = some d) (hseq : p.seqs = some old)
    (hpoll : t.pollSeqs = .ok newSeqs)
    (hnonempty : (seqChanges old newSeqs).isEmpty = false)
    (hreply : containsKey (seqChanges old newSeqs) "reply" = true →
      ∃ sr, t.rrReply = .ok sr) :
    (tick t p).1.om
      = some (processChanges t d (popA (seqChanges old newSeqs) "volChanges")).1 ∧
    (tick t p).2
      = (processChanges t d (popA (seqChanges old newSeqs) "volChanges")).2 := by
  rw [tick_poll_spec t p d old newSeqs hom hseq hpoll]
  simp only [hnonempty, Bool.false_eq_true, if_false]
  rw [handle_false_spec]
  by_cases hr : containsKey (seqChanges old newSeqs) "reply" = true
  · obtain ⟨sr, hsr⟩ := hreply hr
    simp [hr, hsr]
  · simp [hr]

/-- From success of all fetches for non-reply, non-volChanges changed keys,
success of all fetches the loop actually performs (after the volChanges pop). -/
theorem popVol_fetch_ok (t : Transport) {c : AList Int} (hndc : nodupKeysB c = true)
    (hall : ∀ k2, containsKey c k2 = true → k2 ≠ "reply" → k2 ≠ "volChanges" →
      ∃ w, t.fetchKey k2 = .ok w) :
    ∀ k2, containsKey (popA c "volChanges") k2 = true → k2 ≠ "reply" →
      ∃ w, t.fetchKey k2 = .ok w := by
  intro k2 hc2 hk2
  by_cases hv : k2 = "volChanges"
  · subst hv
    rw [containsKey_popA_self hndc _] at hc2
    cases hc2
  · rw [containsKey_popA_ne _ (Ne.symm hv)] at hc2
    exact hall k2 hc2 hk2 hv

/-- C9: on the per-tick partial-update path, every processed changed key other
than `reply` (and other than the discarded `volChanges`) has its baseline
branch replaced wholesale by exactly the freshly fetched subtree: after the
tick, `om[key]` is precisely the oracle's fetch result, whatever value `om`
previously held there — `merge_dictionary` plays no part in this path (the
result is fully determined by `processChanges`, which never calls it). -/
theorem C9_wholesale_overwrite (t : Transport) (p : Printer) (d : AList Value)
    (old newSeqs : AList Int) (k : String) (u : Value)
    (hom : p.om = some d) (hseq : p.seqs = some old)
    (hpoll : t.pollSeqs = .ok newSeqs) (hnd : nodupKeysB newSeqs = true)
    (hc : containsKey (seqChanges old newSeqs) k = true)
    (hkr : k ≠ "reply") (hkv : k ≠ "volChanges")
    (hall : ∀ k2, containsKey (seqChanges old newSeqs) k2 = true → k2 ≠ "reply" →
      k2 ≠ "volChanges" → ∃ w, t.fetchKey k2 = .ok w)
    (hreply : containsKey (seqChanges old newSeqs) "reply" = true →
      ∃ sr, t.rrReply = .ok sr)
    (hfetch : t.fetchKey k = .ok u) :
    lookupA ((tick t p).1.om.getD []) k = some u ∧ (tick t p).2 = .ok () := by
  have hnonempty : (seqChanges old newSeqs).isEmpty = false :=
    isEmpty_false_of_containsKey hc
  obtain ⟨hom2, hres⟩ :=
    tick_changes_result t p d old newSeqs hom hseq hpoll hnonempty hreply
  have hndc : nodupKeysB (seqChanges old newSeqs) = true := nodupKeysB_filter _ hnd
  have hndc1 : nodupKeysB (popA (seqChanges old newSeqs) "volChanges") = true :=
    nodupKeysB_popA hndc _
  have hall2 := popVol_fetch_ok t hndc hall
  constructor
  · rw [hom2]
    simp only [Option.getD_some]
    exact processChanges_lookup t _ d k u hndc1
      (by rw [containsKey_popA_ne _ (Ne.symm hkv)]; exact hc) hkr hall2 hfetch
  · rw [hres]
    exact processChanges_ok t _ d hall2

/-- C9 witness: stored counters `{"job": 1, "move": 4}`, poll
`{"job": 2, "move": 4}` — only `job` changed; its subtree is fetched and
assigned wholesale over the previous `om["job"] = null`. -/
theorem C9_wholesale_overwrite_witness :
    lookupA ((tick ⟨.ok [], .ok [("job", 2), ("move", 4)],
        fun _ => .ok (.obj [("status", Value.str "printing")]), .ok "ok"⟩
      ⟨some [("job", Value.null)], some [("job", 1), ("move", 4)], none⟩).1.om.getD [])
      "job" = some (.obj [("status", Value.str "printing")]) ∧
    (tick ⟨.ok [], .ok [("job", 2), ("move", 4)],
        fun _ => .ok (.obj [("status", Value.str "printing")]), .ok "ok"⟩
      ⟨some [("job", Value.null)], some [("job", 1), ("move", 4)], none⟩).2 = .ok () :=
  C9_wholesale_overwrite _ _ [("job", Value.null)] [("job", 1), ("move", 4)]
    [("job", 2), ("move", 4)] "job" (.obj [("status", Value.str "printing")])
    rfl rfl rfl (by decide) (by decide) (by decide) (by decide)
    (fun k2 _ _ _ => ⟨.obj [("status", Value.str "printing")], rfl⟩)
    (fun _ => ⟨"ok", rfl⟩) rfl

/-- C10: when `volChanges` is among the changed keys it is popped from the
change set: the tick does not fetch it (the theorem holds with NO assumption on
`t.fetchKey "volChanges"` — the oracle may even fail there — yet the tick still
returns success), the baseline binding under `volChanges` is untouched, and
every other changed key is still processed normally (fetched and assigned). -/
theorem C10_volChanges_skipped (t : Transport) (p : Printer) (d : AList Value)
    (old newSeqs : AList Int)
    (hom : p.om = some d) (hseq : p.seqs = some old)
    (hpoll : t.pollSeqs = .ok newSeqs) (hnd : nodupKeysB newSeqs = true)
    (hvol : containsKey (seqChanges old newSeqs) "volChanges" = true)
    (hall : ∀ k2, containsKey (seqChanges old newSeqs) k2 = true → k2 ≠ "reply" →
      k2 ≠ "volChanges" → ∃ w, t.fetchKey k2 = .ok w)
    (hreply : containsKey (seqChanges old newSeqs) "reply" = true →
      ∃ sr, t.rrReply = .ok sr) :
    (tick t p).2 = .ok () ∧
    lookupA ((tick t p).1.om.getD []) "volChanges" = lookupA d "volChanges" ∧
    (∀ k u, k ≠ "reply" → k ≠ "volChanges" →
      containsKey (seqChanges old newSeqs) k = true → t.fetchKey k = .ok u →
      lookupA ((tick t p).1.om.getD []) k = some u) := by
  have hnonempty : (seqChanges old newSeqs).isEmpty = false :=
    isEmpty_false_of_containsKey hvol
  obtain ⟨hom2, hres⟩ :=
    tick_changes_result t p d old newSeqs hom hseq hpoll hnonempty hreply
  have hndc : nodupKeysB (seqChanges old newSeqs) = true := nodupKeysB_filter _ hnd
  have hndc1 : nodupKeysB (popA (seqChanges old newSeqs) "volChanges") = true :=
    nodupKeysB_popA hndc _
  have hall2 := popVol_fetch_ok t hndc hall
  refine ⟨?_, ?_, ?_⟩
  · rw [hres]
    exact processChanges_ok t _ d hall2
  · rw [hom2]
    simp only [Option.getD_some]
    exact processChanges_frame t _ d "volChanges" (containsKey_popA_self hndc _)
  · intro k u hkr hkv hc hfetch
    rw [hom2]
    simp only [Option.getD_some]
    exact processChanges_lookup t _ d k u hndc1
      (by rw [containsKey_popA_ne _ (Ne.symm hkv)]; exact hc) hkr hall2 hfetch

/-- C10 witness: both `volChanges` and `job` change; the transport FAILS on a
`volChanges` fetch and on the reply fetch, yet the tick succeeds, leaves
`om["volChanges"]` at its old value 9, and overwrites `om["job"]` with the
fetched subtree. -/
theorem C10_volChanges_skipped_witness :
    (tick ⟨.ok [], .ok [("volChanges", 2), ("job", 2)],
        fun k2 => if k2 = "volChanges" then .error (.transport "vol")
          else .ok (Value.str "fetched"), .error (.transport "re")⟩
      ⟨some [("volChanges", Value.int 9)], some [("volChanges", 1), ("job", 1)],
        none⟩).2 = .ok () ∧
    lookupA ((tick ⟨.ok [], .ok [("volChanges", 2), ("job", 2)],
        fun k2 => if k2 = "volChanges" then .error (.transport "vol")
          else .ok (Value.str "fetched"), .error (.transport "re")⟩
      ⟨some [("volChanges", Value.int 9)], some [("volChanges", 1), ("job", 1)],
        none⟩).1.om.getD []) "volChanges"
      = lookupA [("volChanges", Value.int 9)] "volChanges" ∧
    (∀ k u, k ≠ "reply" → k ≠ "volChanges" →
      containsKey (seqChanges [("volChanges", 1), ("job", 1)]
        [("volChanges", 2), ("job", 2)]) k = true →
      (fun k2 => if k2 = "volChanges" then (.error (.transport "vol") : Except TErr Value)
        else .ok (Value.str "fetched")) k = .ok u →
      lookupA ((tick ⟨.ok [], .ok [("volChanges", 2), ("job", 2)],
          fun k2 => if k2 = "volChanges" then .error (.transport "vol")
            else .ok (Value.str "fetched"), .error (.transport "re")⟩
        ⟨some [("volChanges", Value.int 9)], some [("volChanges", 1), ("job", 1)],
          none⟩).1.om.getD []) k = some u) :=
  C10_volChanges_skipped _ _ [("volChanges", Value.int 9)]
    [("volChanges", 1), ("job", 1)] [("volChanges", 2), ("job", 2)]
    rfl rfl rfl (by decide) (by decide)
    (fun k2 _ _ h3 => ⟨Value.str "fetched", by simp [h3]⟩)
    (fun h => absurd h (by decide))

end Duet
